import Mathlib

/-!
Mod-server request cache (`loader/src/server/Server.cpp`)

A shallow embedding of `CacheMap<K, V>`, `ExtractFun` and `FunCache<F>` and the
properties of the bounded, insertion-ordered request cache.

Conventions of the embedding.
* `std::vector<std::pair<K, V>>` is a `List (K × V)`; index 0 is the head.
* `size_t` values are natural numbers; no arithmetic is performed on them.
* `K` is `std::equality_comparable`; its `operator==` is decidable equality.
* Member functions that are not `const` return the state they leave behind.
* An operation whose C++ behaviour is undefined (`back()` on an empty vector)
  returns `none`.
-/

namespace server

/-! ## Standard-library primitives used by `CacheMap` -/

/-- The call `std::shift_left(first, last, n)` over a whole vector: no effect when
`n = 0` or `n ≥ last - first`; otherwise the element at index `n + i` is moved to
index `i`. The `n` vacated slots at the end are left in a valid but unspecified
state; here they keep what they held before. -/
def shift_left {α : Type} (xs : List α) (n : Nat) : List α :=
  if n = 0 ∨ xs.length ≤ n then xs
  else xs.drop n ++ xs.drop (xs.length - n)

/-- The assignment `v.back() = x`: overwrites the last slot. On an empty vector
`back()` has undefined behaviour, rendered as `none`. -/
def assign_back {α : Type} (xs : List α) (x : α) : Option (List α) :=
  match xs with
  | [] => none
  | y :: ys => some ((y :: ys).dropLast ++ [x])

namespace ranges

/-- Modelled from the spec: `ranges::remove(container, pred)` from
`Geode/utils/ranges.hpp`, which is not among the sources. The spec says of
`CacheMap::remove`, whose whole body is this call, that it must "delete all
entries matching key": every element satisfying the predicate is erased and the
others stay in place, in order. -/
def remove {α : Type} (container : List α) (pred : α → Bool) : List α :=
  container.filter (fun q => !pred q)

end ranges

/-! ## `CacheMap<K, V>` -/

/-- The class `CacheMap<K, V>`: the entries in insertion order and the size
limit (`m_sizeLimit = 20` in a default-constructed cache). -/
structure CacheMap (K V : Type) where
  m_values : List (K × V) := []
  m_sizeLimit : Nat := 20
deriving Repr, DecidableEq

namespace CacheMap

variable {K V : Type} [DecidableEq K]

/-- The member `std::optional<V> get(K const& key)`: `std::find_if` for the first
entry whose key equals `key`; the object is returned as it is left. -/
def get (c : CacheMap K V) (key : K) : Option V × CacheMap K V :=
  match c.m_values.find? (fun q => q.1 == key) with
  | some it => (some it.2, c)
  | none => (none, c)

/-- The member `void add(K&& key, V&& value)`. -/
def add (c : CacheMap K V) (key : K) (value : V) : Option (CacheMap K V) :=
  let pair := (key, value)
  -- shift and replace last element when at the cache size limit
  if c.m_values.length ≥ c.m_sizeLimit then
    match assign_back (shift_left c.m_values 1) pair with
    | some vs => some { c with m_values := vs }
    | none => none
  -- otherwise append at end
  else
    some { c with m_values := c.m_values ++ [pair] }

/-- The member `void remove(K const& key)`. -/
def remove (c : CacheMap K V) (key : K) : CacheMap K V :=
  { c with m_values := ranges.remove c.m_values (fun q => q.1 == key) }

/-- The member `void clear()`. -/
def clear (c : CacheMap K V) : CacheMap K V :=
  { c with m_values := [] }

/-- The member `void limit(size_t size)`: sets the limit and clears. -/
def limit (c : CacheMap K V) (size : Nat) : CacheMap K V :=
  { c with m_sizeLimit := size, m_values := [] }

/-- The member `size_t size() const`. -/
def size (c : CacheMap K V) : Nat :=
  c.m_values.length

/-- The accessor `size_t limit() const` (the overload without argument). -/
def limit_get (c : CacheMap K V) : Nat :=
  c.m_sizeLimit

/-- Successive `add` calls, in list order; undefined as soon as one call is. -/
def addAll (c : CacheMap K V) : List (K × V) → Option (CacheMap K V)
  | [] => some c
  | kv :: rest =>
    match c.add kv.1 kv.2 with
    | some c' => addAll c' rest
    | none => none

/-- No two entries share a key. -/
def UniqueKeys (c : CacheMap K V) : Prop :=
  (c.m_values.map Prod.fst).Nodup

end CacheMap

/-! ## `ExtractFun` and `FunCache<F>`

The cached function `F` has the C++ type `ServerRequest<V>(*)(Args..., bool)`: the
caller arguments `A` followed by the `useCache` flag. Calling it starts a request,
so it acts on a world `W` outside the cache and yields a handle `H`. -/

namespace ExtractFun

/-- The alias `CacheKey = std::tuple<std::remove_cvref_t<Args>...>`: the argument
types of `F`, that is the caller arguments and the trailing flag. -/
abbrev CacheKey (A : Type) : Type := A × Bool

/-- The static member `key(args...)`: `std::make_tuple(args..., false)`. -/
def key {A : Type} (args : A) : CacheKey A :=
  (args, false)

/-- The static member `invoke(func, args...)`: `func(args..., false)`. -/
def invoke {A W H : Type} (func : A → Bool → W → H × W) (args : A) : W → H × W :=
  func args false

end ExtractFun

/-- The class `FunCache<F>`; its mutex has no effect on a single caller. -/
structure FunCache (A H : Type) where
  m_cache : CacheMap (ExtractFun.CacheKey A) H := {}

namespace FunCache

variable {A W H : Type} [DecidableEq A]

/-- The member `ServerRequest<Value> get(Args const&... args)`: the handle
returned, the cache and the world afterwards. -/
def get (F : A → Bool → W → H × W) (self : FunCache A H) (args : A) (w : W) :
    Option (H × FunCache A H × W) :=
  match self.m_cache.get (ExtractFun.key args) with
  | (some v, cache) => some (v, { self with m_cache := cache }, w)
  | (none, cache) =>
    match ExtractFun.invoke F args w with
    | (f, w') =>
      match cache.add (ExtractFun.key args) f with
      | some cache' => some (f, { self with m_cache := cache' }, w')
      | none => none

/-- The member `void remove(Args const&... args)`. -/
def remove (self : FunCache A H) (args : A) : FunCache A H :=
  { self with m_cache := self.m_cache.remove (ExtractFun.key args) }

/-- The member `size_t size()`. -/
def size (self : FunCache A H) : Nat :=
  self.m_cache.size

/-- The member `void limit(size_t size)`. -/
def limit (self : FunCache A H) (size : Nat) : FunCache A H :=
  { self with m_cache := self.m_cache.limit size }

/-- The member `void clear()`. -/
def clear (self : FunCache A H) : FunCache A H :=
  { self with m_cache := self.m_cache.clear }

end FunCache

/-- A fetch function instrumented with the log of its invocations: the world is
paired with the list of argument tuples `F` has been called with, oldest first. -/
def logged {A W H : Type} (F : A → Bool → W → H × W) :
    A → Bool → W × List (A × Bool) → H × (W × List (A × Bool)) :=
  fun args flag st =>
    match F args flag st.1 with
    | (h, w') => (h, (w', st.2 ++ [(args, flag)]))

/-! ## The update check: `batchedCheckUpdates`, `queueBatches`, `checkAllUpdates`

Mod IDs are values of a type `I`, update records of a type `U`, server errors of a
type `E`; a `Result<std::vector<ServerModUpdate>, ServerError>` is an
`Except E (List U)`. What the web layer answers is a parameter `transport`:
`transport k batch` is the result with which the request for `batch` finishes
when `k` requests were sent before it. The element count of a
`std::vector<std::string>` is far below `2 ^ 63`, so the `size_t` sums of the
partition loop do not wrap and are sums of natural numbers. -/

/-- The observable steps of an update check, in the order they happen. -/
inductive Event (I U E : Type) where
  /-- The call `batchedCheckUpdates(batch)` sends its web request. -/
  | request (batch : List I) : Event I U E
  /-- The request in flight finishes and its `listen` callback runs. -/
  | response (result : Except E (List U)) : Event I U E
  /-- The handle given to the caller receives its result (`resolve` / `finish`). -/
  | resolve (result : Except E (List U)) : Event I U E

namespace Event

variable {I U E : Type}

/-- The batches of the `request` events of a trace, in order. -/
def requests : List (Event I U E) → List (List I)
  | [] => []
  | request batch :: rest => batch :: requests rest
  | _ :: rest => requests rest

/-- The results of the `resolve` events of a trace, in order. -/
def resolves : List (Event I U E) → List (Except E (List U))
  | [] => []
  | resolve result :: rest => result :: resolves rest
  | _ :: rest => resolves rest

end Event

/-- The objects `queueBatches` works on: the two shared vectors it receives, and
the web layer, as the number of requests sent so far and the trace of events. -/
structure Chain (I U E : Type) where
  batches : List (List I)
  accum : List U
  issued : Nat
  trace : List (Event I U E)

/-- The function `server::queueBatches(resolve, batches, accum)`, run until the
chain comes to rest: the callback given to `listen` runs once, with the result of
the request, when the request finishes. `batches->back()` on an empty vector is
undefined (`none`). In the failure branch the source tests `result->isOk()` a
second time; that test is false there, so only `resolve(Err(...))` is reached. -/
def queueBatches {I U E : Type} (transport : Nat → List I → Except E (List U))
    (s : Chain I U E) : Option (Chain I U E) :=
  match s.batches.getLast? with
  | none => none
  | some back =>
    match transport s.issued back with
    | .ok serverValues =>
      if _h : s.batches.length > 1 then
        queueBatches transport
          { batches := s.batches.dropLast
            accum := s.accum ++ serverValues
            issued := s.issued + 1
            trace := s.trace ++ [Event.request back, Event.response (.ok serverValues)] }
      else
        some
          { batches := s.batches
            accum := s.accum ++ serverValues
            issued := s.issued + 1
            trace := s.trace ++ [Event.request back, Event.response (.ok serverValues),
              Event.resolve (.ok (s.accum ++ serverValues))] }
    | .error e =>
      some
        { batches := s.batches
          accum := s.accum
          issued := s.issued + 1
          trace := s.trace ++ [Event.request back, Event.response (.error e),
            Event.resolve (.error e)] }
termination_by s.batches.length
decreasing_by
  simp only [List.length_dropLast]
  omega

/-- The partition loop of `checkAllUpdates`:
`for (i = 0; i < modCount; i += maxBatchSize)` with body
`modBatches->emplace_back(modIDs.begin() + i, modIDs.begin() + end)` where
`end = std::min(modCount, i + maxBatchSize)`. -/
def batchLoop {I : Type} (modIDs : List I) (maxBatchSize : Nat) (hpos : 0 < maxBatchSize)
    (i : Nat) (modBatches : List (List I)) : List (List I) :=
  if _h : i < modIDs.length then
    batchLoop modIDs maxBatchSize hpos (i + maxBatchSize)
      (modBatches ++ [(modIDs.take (min modIDs.length (i + maxBatchSize))).drop i])
  else
    modBatches
termination_by modIDs.length - i
decreasing_by omega

/-- The handles `checkAllUpdates` can return. -/
inductive ServerRequest (I U E : Type) where
  /-- The handle `ServerRequest::immediate(result)`, finished from the start. -/
  | immediate (result : Except E (List U)) : ServerRequest I U E
  /-- The handle returned by `batchedCheckUpdates(batch)`. -/
  | batched (batch : List I) : ServerRequest I U E
  /-- The handle of `runWithCallback`, whose callback makes an empty `accum` and
  calls `queueBatches(finish, modBatches, accum)`. -/
  | runWithCallback (modBatches : List (List I)) : ServerRequest I U E

/-- The function `server::batchedCheckUpdates(batch)`: one web request for the
IDs of `batch`. -/
def batchedCheckUpdates {I U E : Type} (batch : List I) : ServerRequest I U E :=
  ServerRequest.batched batch

/-- The function `server::checkAllUpdates(useCache)` on the path
`useCache = false`; `modIDs` is the list of the IDs of all mods of the loader. -/
def checkAllUpdates {I U E : Type} (modIDs : List I) : ServerRequest I U E :=
  -- if there are no mods, the request would just be empty anyways
  if modIDs.isEmpty then
    ServerRequest.immediate (.ok [])
  else
    let modCount := modIDs.length
    let maxMods := 200
    if modCount ≤ maxMods then
      -- no tricks needed
      batchedCheckUpdates modIDs
    else
      -- even out the mod count
      let batchCount := modCount / maxMods + 1
      let maxBatchSize := modCount / batchCount + 1
      -- chain requests to avoid doing too many large requests at once
      ServerRequest.runWithCallback
        (batchLoop modIDs maxBatchSize (Nat.succ_pos _) 0 [])

/-- Modelled from the spec: the task library behind `ServerRequest`
(`Geode/utils/Task.hpp` and the web request of `Geode/utils/web.hpp`, not among
the sources). The spec describes a handle "producing `Result<Response,
TransportError>`", with "immediate-resolution construction": an immediate handle
finishes with its result and sends nothing; the handle of `batchedCheckUpdates`
sends its one request and finishes with the result of that request; the handle of
`runWithCallback` runs its callback, here `queueBatches` on an empty accumulator.
The value is the trace of events, `none` where the code has undefined behaviour. -/
def ServerRequest.run {I U E : Type} (transport : Nat → List I → Except E (List U)) :
    ServerRequest I U E → Option (List (Event I U E))
  | .immediate result => some [Event.resolve result]
  | .batched batch =>
    some [Event.request batch, Event.response (transport 0 batch),
      Event.resolve (transport 0 batch)]
  | .runWithCallback modBatches =>
    (queueBatches transport
      { batches := modBatches, accum := [], issued := 0, trace := [] }).map Chain.trace

/-- The results with which the requests for the batches of `order`, sent one
after the other, finish when `k` requests were sent before them. -/
def answers {I U E : Type} (transport : Nat → List I → Except E (List U)) :
    Nat → List (List I) → List (Except E (List U))
  | _, [] => []
  | k, batch :: rest => transport k batch :: answers transport (k + 1) rest

/-- The trace of requests made strictly one after the other: each batch is
requested and its result received before the next batch is requested. -/
def exchanges {I U E : Type} :
    List (List I) → List (Except E (List U)) → List (Event I U E)
  | batch :: order, result :: results =>
    Event.request batch :: Event.response result :: exchanges order results
  | _, _ => []

/-! ## Concurrent callers of `FunCache::get`

Several callers run the body of `FunCache::get` with the same arguments. A caller
advances one statement at a time, in any interleaving with the others;
`std::unique_lock lock(m_mutex)` lets a caller pass only while no other caller
holds the mutex, and every `return` releases it. -/

/-- Where a caller stands in the body of `FunCache::get`. -/
inductive Caller (H : Type) where
  /-- At `std::unique_lock lock(m_mutex)`, the mutex not yet obtained. -/
  | waiting : Caller H
  /-- Holds the mutex, before the lookup `m_cache.get(Extract::key(args...))`. -/
  | locked : Caller H
  /-- The lookup was absent; before `Extract::invoke(F, args...)`. -/
  | missed : Caller H
  /-- Holds the fetched handle `f`, before `m_cache.add(...)`. -/
  | fetched (f : H) : Caller H
  /-- Has returned `v`; its lock is released. -/
  | returned (v : H) : Caller H

/-- One `FunCache` shared by callers: the mutex with the index of its holder, the
cache, the world the fetch function acts on, and where each caller stands. -/
structure Shared (A W H : Type) where
  m_mutex : Option Nat
  m_cache : CacheMap (ExtractFun.CacheKey A) H
  world : W
  callers : List (Caller H)

/-- Caller `t` executes its next statement of `FunCache::get(args...)`. A caller
waiting for a held mutex, and a caller that has returned, leave the state as it
is. -/
def getStep {A W H : Type} [DecidableEq A] (F : A → Bool → W → H × W) (args : A) (t : Nat)
    (s : Shared A W H) : Option (Shared A W H) :=
  match s.callers[t]? with
  | none => some s
  | some Caller.waiting =>
    if s.m_mutex.isNone then
      some { s with m_mutex := some t, callers := s.callers.set t Caller.locked }
    else some s
  | some Caller.locked =>
    match s.m_cache.get (ExtractFun.key args) with
    | (some v, cache) =>
      some { s with m_mutex := none, m_cache := cache,
                    callers := s.callers.set t (Caller.returned v) }
    | (none, cache) =>
      some { s with m_cache := cache, callers := s.callers.set t Caller.missed }
  | some Caller.missed =>
    match ExtractFun.invoke F args s.world with
    | (f, w') => some { s with world := w', callers := s.callers.set t (Caller.fetched f) }
  | some (Caller.fetched f) =>
    match s.m_cache.add (ExtractFun.key args) f with
    | some cache =>
      some { s with m_mutex := none, m_cache := cache,
                    callers := s.callers.set t (Caller.returned f) }
    | none => none
  | some (Caller.returned _) => some s

/-- The callers advance in the order given by `schedule`. -/
def getRun {A W H : Type} [DecidableEq A] (F : A → Bool → W → H × W) (args : A) :
    List Nat → Shared A W H → Option (Shared A W H)
  | [], s => some s
  | t :: schedule, s =>
    match getStep F args t s with
    | some s' => getRun F args schedule s'
    | none => none

/-- The states callers with the same arguments can reach from a cache `cache0`
without an entry for their key and a world `w0`: nothing fetched yet; the one
fetch made and about to be stored; or its handle stored in the cache. -/
def DedupInv {A W H : Type} [DecidableEq A] (F : A → Bool → W → H × W) (args : A)
    (cache0 : CacheMap (ExtractFun.CacheKey A) H) (w0 : W) (s : Shared A W H) : Prop :=
  (s.m_cache = cache0 ∧ s.world = w0 ∧
    ∀ i c, s.callers[i]? = some c →
      c = Caller.waiting ∨ (s.m_mutex = some i ∧ (c = Caller.locked ∨ c = Caller.missed))) ∨
  (∃ t, s.m_mutex = some t ∧ s.m_cache = cache0 ∧ s.world = (F args false w0).2 ∧
    s.callers[t]? = some (Caller.fetched (F args false w0).1) ∧
    ∀ i c, i ≠ t → s.callers[i]? = some c → c = Caller.waiting) ∨
  ((s.m_cache.get (ExtractFun.key args)).1 = some (F args false w0).1 ∧
    s.world = (F args false w0).2 ∧
    ∀ i c, s.callers[i]? = some c →
      c = Caller.waiting ∨ c = Caller.returned (F args false w0).1 ∨
        (s.m_mutex = some i ∧ c = Caller.locked))

/-! ## Server responses

A `matjson::Value` is a value of `Json`; an object keeps its members in order. A
`web::WebResponse` is given by what its accessors return: `code()`, `ok()`,
`json()`, `string()` and `data()`. The text that `json.dump()` prints is a
parameter `dump`. -/

/-- The JSON values of `matjson::Value`. -/
inductive Json where
  | null : Json
  | bool (b : Bool) : Json
  | number (n : Int) : Json
  | string (s : String) : Json
  | array (items : List Json) : Json
  | object (members : List (String × Json)) : Json

/-- The enumeration `matjson::Type`. -/
inductive JsonType where
  | Object | Array | Bool | Number | String | Null

namespace Json

/-- The accessor `type()`. -/
def type : Json → JsonType
  | null => JsonType.Null
  | bool _ => JsonType.Bool
  | number _ => JsonType.Number
  | string _ => JsonType.String
  | array _ => JsonType.Array
  | object _ => JsonType.Object

/-- The test `isObject()`. -/
def isObject : Json → Bool
  | object _ => true
  | _ => false

/-- The test `isString()`. -/
def isString : Json → Bool
  | string _ => true
  | _ => false

/-- The test `contains(key)`: an object with a member named `key`. -/
def contains : Json → String → Bool
  | object members, key => members.any (fun m => m.1 == key)
  | _, _ => false

/-- The access `json[key]`: the first member named `key`, a null value when there
is none. -/
def index : Json → String → Json
  | object members, key =>
    match members.find? (fun m => m.1 == key) with
    | some m => m.2
    | none => null
  | _, _ => null

/-- The conversion `asString()`. -/
def asString : Json → Except String String
  | string s => .ok s
  | _ => .error "not a string"

end Json

/-- The function `jsonTypeToString`. -/
def jsonTypeToString : JsonType → String
  | JsonType.Object => "object"
  | JsonType.Array => "array"
  | JsonType.Bool => "boolean"
  | JsonType.Number => "number"
  | JsonType.String => "string"
  | JsonType.Null => "null"

/-- A `web::WebResponse`, as the values of its accessors. -/
structure WebResponse where
  code : Int
  ok : Bool
  json : Except String Json
  string : Except String String
  data : List Nat

/-- The class `ServerError`: the status code and the formatted message. -/
structure ServerError where
  code : Int
  details : String

/-- The helper `unwrapOr` of `Result`. -/
def unwrapOr {ε α : Type} (r : Except ε α) (dflt : α) : α :=
  match r with
  | .ok v => v
  | .error _ => dflt

/-- The function `parseServerPayload(response)`. -/
def parseServerPayload (dump : Json → String) (response : WebResponse) :
    Except ServerError Json :=
  match response.json with
  | .error err =>
    .error ⟨response.code, "Response was not valid JSON: " ++ err⟩
  | .ok json =>
    if !json.isObject then
      .error ⟨response.code, "Expected object, got " ++ jsonTypeToString json.type⟩
    else if !json.contains "payload" then
      .error ⟨response.code,
        "Object does not contain \"payload\" key - got " ++ dump json⟩
    else
      .ok (json.index "payload")

/-- The function `parseServerError(error)`. -/
def parseServerError (error : WebResponse) : ServerError :=
  -- the server should return errors as an object with an "error" string
  match error.json with
  | .ok json =>
    if json.isObject && json.contains "error" && (json.index "error").isString then
      ⟨error.code, unwrapOr (json.index "error").asString "Unknown (no error message)"⟩
    else
      ⟨error.code, "Unknown (not valid JSON)"⟩
  -- but if we get something else for some reason, return that
  | .error _ =>
    ⟨error.code, unwrapOr error.string "Unknown (not a valid string)"⟩

/-- The steps shared by the response mappers on a successful response: parse the
payload, then parse the value with `parse`. -/
def parseOkResponse {T : Type} (dump : Json → String) (parse : Json → Except String T)
    (response : WebResponse) : Except ServerError T :=
  match parseServerPayload dump response with
  | .error e => .error e
  | .ok payload =>
    match parse payload with
    | .error e => .error ⟨response.code, "Unable to parse response: " ++ e⟩
    | .ok list => .ok list

/-- The response mapper of `server::getMods`; `parse` is `ServerModsList::parse`
and `empty` the value `ServerModsList()`. -/
def getModsResult {T : Type} (dump : Json → String) (parse : Json → Except String T)
    (empty : T) (response : WebResponse) : Except ServerError T :=
  if response.ok then
    parseOkResponse dump parse response
  -- treat a 404 as empty mods list
  else if response.code == 404 then
    .ok empty
  else
    .error (parseServerError response)

/-- The response mapper of `server::getMod`; `parse` is `ServerModMetadata::parse`. -/
def getModResult {T : Type} (dump : Json → String) (parse : Json → Except String T)
    (response : WebResponse) : Except ServerError T :=
  if response.ok then
    parseOkResponse dump parse response
  else
    .error (parseServerError response)

/-- The response mapper of `server::getModVersion`; `parse` is
`ServerModVersion::parse`. -/
def getModVersionResult {T : Type} (dump : Json → String)
    (parse : Json → Except String T) (response : WebResponse) : Except ServerError T :=
  if response.ok then
    parseOkResponse dump parse response
  else
    .error (parseServerError response)

/-- The response mapper of `server::getModLogo`. -/
def getModLogoResult (response : WebResponse) : Except ServerError (List Nat) :=
  if response.ok then
    .ok response.data
  else
    .error (parseServerError response)

/-- The response mapper of `server::getTags`; `parse` is `ServerTag::parseList`. -/
def getTagsResult {T : Type} (dump : Json → String) (parse : Json → Except String T)
    (response : WebResponse) : Except ServerError T :=
  if response.ok then
    parseOkResponse dump parse response
  else
    .error (parseServerError response)

/-- The response mapper of `server::batchedCheckUpdates`; `parse` is
`ServerModUpdate::parseList`. -/
def batchedCheckUpdatesResult {T : Type} (dump : Json → String)
    (parse : Json → Except String T) (response : WebResponse) : Except ServerError T :=
  if response.ok then
    parseOkResponse dump parse response
  else
    .error (parseServerError response)

/-! ## Lists parsed item by item -/

/-- Modelled from the spec: the checker `JsonExpectedValue` of
`Geode/utils/JsonValidation.hpp`, which is not among the sources. The spec has a
response that "fails schema validation" end in an error, while "an individual
list item" that "fails to parse" is "logged and the item is skipped; the overall
request still succeeds": a checker holds the value it checks and the error found
on that value, if any; the parse of an item is a check of its own. -/
structure JsonExpectedValue where
  json : Json
  error : Option String

/-- Modelled from the spec: `checkJson(raw, rootScopeName)` of
`Geode/utils/JsonValidation.hpp` (not among the sources) starts a check of `raw`
with no error found. -/
def checkJson (raw : Json) (_rootScopeName : String) : JsonExpectedValue :=
  ⟨raw, none⟩

namespace JsonExpectedValue

/-- Modelled from the spec: `items()` of `Geode/utils/JsonValidation.hpp` (not
among the sources) gives a checker for each element of an array, in order; a
value that is not an array has no items and fails the check. The second
component is the checker afterwards. -/
def items (self : JsonExpectedValue) : List JsonExpectedValue × JsonExpectedValue :=
  match self.json with
  | Json.array elements => (elements.map (fun e => ⟨e, none⟩), self)
  | _ =>
    ([], { self with error := match self.error with
                              | some e => some e
                              | none => some "expected array" })

/-- Modelled from the spec: `ok(value)` of `Geode/utils/JsonValidation.hpp` (not
among the sources) is `Err` of the error found on the checked value, and
`Ok(value)` when none was found. -/
def ok {T : Type} (self : JsonExpectedValue) (value : T) : Except String T :=
  match self.error with
  | some e => .error e
  | none => .ok value

end JsonExpectedValue

/-- The loop of the two `parseList` functions: each item that parses is pushed
onto `list`, each failure is logged with `message`. The value is the list and
the log. -/
def parseItems {T : Type} (parse : Json → Except String T) (message : String) :
    List JsonExpectedValue → List T × List String → List T × List String
  | [], acc => acc
  | item :: rest, acc =>
    match parse item.json with
    | .ok mod => parseItems parse message rest (acc.1 ++ [mod], acc.2)
    | .error e => parseItems parse message rest (acc.1, acc.2 ++ [message ++ e])

/-- The function `ServerTag::parseList(raw)`; `parse` is `ServerTag::parse`. The
value is the result and what was logged. -/
def ServerTag.parseList {T : Type} (parse : Json → Except String T) (raw : Json) :
    Except String (List T) × List String :=
  match (checkJson raw "ServerTagsList").items with
  | (items, payload) =>
    match parseItems parse "Unable to parse tag from the server: " items ([], []) with
    | (list, log) => (payload.ok list, log)

/-- The function `ServerModUpdate::parseList(raw)`; `parse` is
`ServerModUpdate::parse`. The value is the result and what was logged. -/
def ServerModUpdate.parseList {T : Type} (parse : Json → Except String T) (raw : Json) :
    Except String (List T) × List String :=
  match (checkJson raw "ServerModUpdatesList").items with
  | (items, payload) =>
    match parseItems parse "Unable to parse mod update from the server: " items ([], []) with
    | (list, log) => (payload.ok list, log)

/-! ## The caches of the server functions -/

/-- The instances `getCache<F>()`, one per cached function: `getMods` keyed by a
query `Q`, `getMod` and `getModLogo` by a mod ID, `getModVersion` by a mod ID and a
version `MV`, `getTags` and `checkAllUpdates` by no argument. -/
structure Caches (Q MV HMods HMod HVersion HLogo HTags HUpdates : Type) where
  getMods : FunCache Q HMods
  getMod : FunCache String HMod
  getModVersion : FunCache (String × MV) HVersion
  getModLogo : FunCache String HLogo
  getTags : FunCache Unit HTags
  checkAllUpdates : FunCache Unit HUpdates

section CachesOps

variable {Q MV HMods HMod HVersion HLogo HTags HUpdates : Type}

/-- The function `server::clearServerCaches(clearGlobalCaches)`. -/
def clearServerCaches (clearGlobalCaches : Bool)
    (c : Caches Q MV HMods HMod HVersion HLogo HTags HUpdates) :
    Caches Q MV HMods HMod HVersion HLogo HTags HUpdates :=
  let c1 := { c with getMods := c.getMods.clear }
  let c2 := { c1 with getMod := c1.getMod.clear }
  let c3 := { c2 with getModLogo := c2.getModLogo.clear }
  -- only clear global caches if explicitly requested
  if clearGlobalCaches then
    let c4 := { c3 with getTags := c3.getTags.clear }
    { c4 with checkAllUpdates := c4.checkAllUpdates.clear }
  else
    c3

/-- The listener for changes of the setting "server-cache-size-limit", registered
in `$on_mod(Loaded)`: `size` is an `int64_t`, converted to `size_t` at each call
of `limit`. -/
def serverCacheSizeLimitChanged (size : Int)
    (c : Caches Q MV HMods HMod HVersion HLogo HTags HUpdates) :
    Caches Q MV HMods HMod HVersion HLogo HTags HUpdates :=
  let n := (size % 2 ^ 64).toNat
  let c1 := { c with getMods := c.getMods.limit n }
  let c2 := { c1 with getMod := c1.getMod.limit n }
  let c3 := { c2 with getModLogo := c2.getModLogo.limit n }
  let c4 := { c3 with getTags := c3.getTags.limit n }
  { c4 with checkAllUpdates := c4.checkAllUpdates.limit n }

end CachesOps

/-- The function `server::getModVersion(id, version, useCache)`; `args` is the
pair of `id` and `version`. `fetch` is the function itself as the cache calls it:
`fetch args false` is the path below `if (useCache)`, which sends the web request
and returns its handle. `isCancelled` is `ServerRequest::isCancelled()`. -/
def getModVersion {A W H : Type} [DecidableEq A] (fetch : A → Bool → W → H × W)
    (isCancelled : H → W → Bool) (args : A) (useCache : Bool) (cache : FunCache A H)
    (w : W) : Option (H × FunCache A H × W) :=
  if useCache then
    match cache.get fetch args w with
    | none => none
    | some (cachedRequest, cache1, w1) =>
      -- if mod installation was cancelled, remove it from cache and fetch again
      if isCancelled cachedRequest w1 then
        (cache1.remove args).get fetch args w1
      else
        some (cachedRequest, cache1, w1)
  else
    some ((fetch args false w).1, cache, (fetch args false w).2)

/-- The calls a client makes on a `FunCache<F>`. -/
inductive FunCacheCall (A : Type) where
  | get (args : A) : FunCacheCall A
  | remove (args : A) : FunCacheCall A
  | clear : FunCacheCall A
  | limit (size : Nat) : FunCacheCall A

/-- One call on a `FunCache`: the cache and the world afterwards, `none` where the
call has undefined behaviour. The handle a `get` returns is dropped. -/
def FunCache.call {A W H : Type} [DecidableEq A] (F : A → Bool → W → H × W)
    (self : FunCache A H) (w : W) : FunCacheCall A → Option (FunCache A H × W)
  | FunCacheCall.get args =>
    match self.get F args w with
    | some (_, self1, w1) => some (self1, w1)
    | none => none
  | FunCacheCall.remove args => some (self.remove args, w)
  | FunCacheCall.clear => some (self.clear, w)
  | FunCacheCall.limit size => some (self.limit size, w)

/-- A sequence of calls on a `FunCache`, in list order. -/
def FunCache.calls {A W H : Type} [DecidableEq A] (F : A → Bool → W → H × W) :
    List (FunCacheCall A) → FunCache A H → W → Option (FunCache A H × W)
  | [], self, w => some (self, w)
  | c :: rest, self, w =>
    match self.call F w c with
    | some (self1, w1) => FunCache.calls F rest self1 w1
    | none => none

/-! ## Mod metadata and update checks -/

/-- The class `ServerModVersion`: the mod metadata `metadata` and the server
fields (`downloadURL`, `downloadCount`, `hash`). -/
structure ServerModVersion (MD X : Type) where
  metadata : MD
  server : X

/-- The class `ServerModMetadata`: the list `versions` and the other fields (`id`,
`featured`, `downloadCount`, `about`, `changelog`, `repository`, dates,
`developers`, `tags`). -/
structure ServerModMetadata (P MD X : Type) where
  fields : P
  versions : List (ServerModVersion MD X)

namespace ServerModMetadata

variable {P MD X : Type}

/-- The loop `for (auto& item : root.needs("versions").items())` of
`ServerModMetadata::parse`: a version that parses is completed from the fields of
the mod by `complete` (details, changelog, developers, repository, links) and
pushed onto `res.versions`; a failure is logged. The value is the versions and
the log. -/
def parseVersions (parseVersion : Json → Except String (ServerModVersion MD X))
    (complete : ServerModVersion MD X → ServerModVersion MD X) (id : String) :
    List Json → List (ServerModVersion MD X) × List String →
      List (ServerModVersion MD X) × List String
  | [], acc => acc
  | item :: rest, acc =>
    match parseVersion item with
    | .ok version =>
      parseVersions parseVersion complete id rest (acc.1 ++ [complete version], acc.2)
    | .error e =>
      parseVersions parseVersion complete id rest
        (acc.1, acc.2 ++ ["Unable to parse mod '" ++ id ++ "' version from the server: " ++ e])

/-- The function `ServerModMetadata::parse(raw)`. The parts that read single
fields through the JSON checker are parameters: `head raw` is what precedes the
loop over the versions (the fields read so far, or the error with which
`GEODE_UNWRAP_INTO` returns on a malformed date), `id` reads `res.id`,
`versionItems raw` are the values of `root.needs("versions").items()`,
`parseVersion` is `ServerModVersion::parse`, `complete` fills a version from the
fields of the mod, `tail` reads the tags and the download count, and
`root raw` is the checker `root` as it stands at `root.ok(res)`.
The value is the result and the log. -/
def parse (head : Json → Except String P) (id : P → String)
    (versionItems : Json → List Json)
    (parseVersion : Json → Except String (ServerModVersion MD X))
    (complete : P → Json → ServerModVersion MD X → ServerModVersion MD X)
    (tail : P → Json → P) (root : Json → JsonExpectedValue) (raw : Json) :
    Except String (ServerModMetadata P MD X) × List String :=
  match head raw with
  | .error e => (.error e, [])
  | .ok res =>
    match parseVersions parseVersion (complete res raw) (id res) (versionItems raw) ([], []) with
    | (versions, log) =>
      -- ensure there is at least one valid version
      if versions.isEmpty then
        (.error ("Mod '" ++ id res ++ "' has no (valid) versions"), log)
      else
        ((root raw).ok { fields := tail res raw, versions := versions }, log)

/-- The member `latestVersion()`: `this->versions.front().metadata`; `front()` on
an empty vector is undefined (`none`). -/
def latestVersion (self : ServerModMetadata P MD X) : Option MD :=
  match self.versions with
  | [] => none
  | front :: _ => some front.metadata

end ServerModMetadata

/-- The class `ServerModUpdate`: `id`, `version` and the optional `replacement`. -/
structure ServerModUpdate (Ver R : Type) where
  id : String
  version : Ver
  replacement : Option R

/-- The loop of the mapper in `server::checkUpdates(mod)`: the first update for
the ID of `mod` that is newer than the version of `mod` or has a replacement;
`gt` is `operator>` of the versions. -/
def checkUpdatesLoop {Ver R : Type} (gt : Ver → Ver → Bool) (modID : String)
    (modVersion : Ver) : List (ServerModUpdate Ver R) → Option (ServerModUpdate Ver R)
  | [] => none
  | update :: rest =>
    if update.id == modID && (gt update.version modVersion || update.replacement.isSome) then
      some update
    else
      checkUpdatesLoop gt modID modVersion rest

/-- The mapper that `server::checkUpdates(mod)` applies to the result of
`checkAllUpdates()`; `modID` and `modVersion` are `mod->getID()` and
`mod->getVersion()`. -/
def checkUpdates {Ver R E : Type} (gt : Ver → Ver → Bool) (modID : String)
    (modVersion : Ver) (result : Except E (List (ServerModUpdate Ver R))) :
    Except E (Option (ServerModUpdate Ver R)) :=
  match result with
  | .ok list => .ok (checkUpdatesLoop gt modID modVersion list)
  | .error e => .error e

/-! ## Basic facts about the primitives -/

theorem shift_left_one_length {α : Type} (xs : List α) :
    (shift_left xs 1).length = xs.length := by
  unfold shift_left
  split
  · rfl
  · rename_i h
    simp only [not_or, not_le] at h
    simp only [List.length_append, List.length_drop]
    omega

theorem assign_back_concat {α : Type} (ys : List α) (w x : α) :
    assign_back (ys ++ [w]) x = some (ys ++ [x]) := by
  cases ys with
  | nil => rfl
  | cons y ys =>
    show some ((y :: ys ++ [w]).dropLast ++ [x]) = some (y :: ys ++ [x])
    rw [List.dropLast_concat]

theorem shift_left_one_of_two_le {α : Type} (xs : List α) (h : 2 ≤ xs.length) :
    ∃ w, shift_left xs 1 = xs.tail ++ [w] := by
  have hlen : (xs.drop (xs.length - 1)).length = 1 := by
    rw [List.length_drop]; omega
  obtain ⟨w, hw⟩ := List.length_eq_one.mp hlen
  refine ⟨w, ?_⟩
  have hn : ¬ ((1 : Nat) = 0 ∨ xs.length ≤ 1) := by omega
  rw [shift_left, if_neg hn, hw, List.drop_one]

theorem assign_back_shift_left {α : Type} (xs : List α) (x : α) (hne : xs ≠ []) :
    assign_back (shift_left xs 1) x = some (xs.tail ++ [x]) := by
  by_cases h : 2 ≤ xs.length
  · obtain ⟨w, hw⟩ := shift_left_one_of_two_le xs h
    rw [hw, assign_back_concat]
  · match xs, hne, h with
    | [y], _, _ => rfl
    | y :: z :: zs, _, h => simp at h

theorem assign_back_nil {α : Type} (x : α) : assign_back ([] : List α) x = none := rfl

namespace CacheMap

variable {K V : Type}

theorem add_of_lt (c : CacheMap K V) (key : K) (value : V)
    (h : c.m_values.length < c.m_sizeLimit) :
    c.add key value = some ⟨c.m_values ++ [(key, value)], c.m_sizeLimit⟩ := by
  simp [add, Nat.not_le.mpr h]

theorem add_of_ge (c : CacheMap K V) (key : K) (value : V)
    (h : c.m_sizeLimit ≤ c.m_values.length) (hne : c.m_values ≠ []) :
    c.add key value = some ⟨c.m_values.tail ++ [(key, value)], c.m_sizeLimit⟩ := by
  simp [add, h, assign_back_shift_left _ _ hne]

theorem add_empty_zero (key : K) (value : V) :
    (CacheMap.mk ([] : List (K × V)) 0).add key value = none := by
  simp [add, shift_left, assign_back]

theorem add_step (c : CacheMap K V) (key : K) (value : V)
    (hL : 1 ≤ c.m_sizeLimit) (hle : c.m_values.length ≤ c.m_sizeLimit) :
    c.add key value = some
      ⟨(c.m_values ++ [(key, value)]).drop (c.m_values.length + 1 - c.m_sizeLimit),
        c.m_sizeLimit⟩ := by
  by_cases hlt : c.m_values.length < c.m_sizeLimit
  · rw [add_of_lt c key value hlt]
    have h0 : c.m_values.length + 1 - c.m_sizeLimit = 0 := by omega
    rw [h0, List.drop_zero]
  · have hge : c.m_sizeLimit ≤ c.m_values.length := by omega
    have hne : c.m_values ≠ [] := by
      intro h
      rw [h] at hge
      simp at hge
      omega
    rw [add_of_ge c key value hge hne]
    have h1 : c.m_values.length + 1 - c.m_sizeLimit = 1 := by omega
    rw [h1]
    cases hv : c.m_values with
    | nil => exact absurd hv hne
    | cons y ys => simp

theorem addAll_eq (kvs : List (K × V)) :
    ∀ c : CacheMap K V, 1 ≤ c.m_sizeLimit → c.m_values.length ≤ c.m_sizeLimit →
      c.addAll kvs = some
        ⟨(c.m_values ++ kvs).drop (c.m_values.length + kvs.length - c.m_sizeLimit),
          c.m_sizeLimit⟩ := by
  induction kvs with
  | nil =>
    intro c _ hle
    have h0 : c.m_values.length + ([] : List (K × V)).length - c.m_sizeLimit = 0 := by
      simp only [List.length_nil]; omega
    rw [h0]
    simp [addAll]
  | cons kv rest ih =>
    intro c hL hle
    rw [addAll, add_step c kv.1 kv.2 hL hle]
    simp only [Prod.mk.eta]
    have hlen : (List.drop (c.m_values.length + 1 - c.m_sizeLimit) (c.m_values ++ [kv])).length
        ≤ c.m_sizeLimit := by
      simp only [List.length_drop, List.length_append, List.length_cons, List.length_nil]
      omega
    have hrec := ih ⟨List.drop (c.m_values.length + 1 - c.m_sizeLimit) (c.m_values ++ [kv]),
      c.m_sizeLimit⟩ hL hlen
    rw [hrec]
    simp only [List.length_drop, List.length_append, List.length_cons, List.length_nil]
    have hdrop : List.drop (c.m_values.length + 1 - c.m_sizeLimit) (c.m_values ++ [kv]) ++ rest
        = List.drop (c.m_values.length + 1 - c.m_sizeLimit) (c.m_values ++ kv :: rest) := by
      have hk : c.m_values.length + 1 - c.m_sizeLimit ≤ (c.m_values ++ [kv]).length := by
        rw [List.length_append, List.length_singleton]
        omega
      rw [show c.m_values ++ kv :: rest = (c.m_values ++ [kv]) ++ rest by simp]
      exact (List.drop_append_of_le_length hk).symm
    rw [hdrop, List.drop_drop]
    congr 2
    congr 1
    omega

theorem uniqueKeys_filter (l : List (K × V)) (p : K × V → Bool)
    (h : (l.map Prod.fst).Nodup) : ((l.filter p).map Prod.fst).Nodup :=
  (List.filter_sublist l).map Prod.fst |>.nodup h

variable [DecidableEq K]

theorem get_snd (c : CacheMap K V) (key : K) : (c.get key).2 = c := by
  unfold get
  split <;> rfl

theorem get_fst (c : CacheMap K V) (key : K) :
    (c.get key).1 = (c.m_values.find? (fun q => q.1 == key)).map Prod.snd := by
  unfold get
  split <;> rename_i h <;> simp [h]

theorem get_eq_none_iff (c : CacheMap K V) (key : K) :
    (c.get key).1 = none ↔ key ∉ c.m_values.map Prod.fst := by
  rw [get_fst]
  simp only [Option.map_eq_none', List.find?_eq_none, beq_iff_eq, List.mem_map, not_exists,
    not_and]

theorem find_of_mem_nodup (l : List (K × V)) (key : K) (value : V)
    (hnd : (l.map Prod.fst).Nodup) (hmem : (key, value) ∈ l) :
    l.find? (fun q => q.1 == key) = some (key, value) := by
  induction l with
  | nil => simp at hmem
  | cons q qs ih =>
    rw [List.map_cons, List.nodup_cons] at hnd
    rcases List.mem_cons.mp hmem with h | h
    · subst h
      simp
    · have hne : q.1 ≠ key := by
        intro hq
        apply hnd.1
        rw [hq]
        exact List.mem_map_of_mem Prod.fst h
      rw [List.find?_cons_of_neg _ (by simpa using hne)]
      exact ih hnd.2 h

theorem get_of_mem_nodup (c : CacheMap K V) (key : K) (value : V)
    (hnd : c.UniqueKeys) (hmem : (key, value) ∈ c.m_values) :
    (c.get key).1 = some value := by
  rw [get_fst, find_of_mem_nodup c.m_values key value hnd hmem]
  rfl

theorem find_filter_ne (l : List (K × V)) (key k : K) (hk : k ≠ key) :
    (l.filter (fun q => !(q.1 == key))).find? (fun q => q.1 == k)
      = l.find? (fun q => q.1 == k) := by
  induction l with
  | nil => rfl
  | cons q qs ih =>
    by_cases hq : q.1 = key
    · have hqk : ¬ q.1 = k := fun h => hk (h.symm.trans hq)
      rw [List.filter_cons_of_neg (by simpa using hq), ih,
        List.find?_cons_of_neg _ (by simpa using hqk)]
    · rw [List.filter_cons_of_pos (by simpa using hq)]
      by_cases hqk : q.1 = k
      · simp [hqk]
      · rw [List.find?_cons_of_neg _ (by simpa using hqk),
          List.find?_cons_of_neg _ (by simpa using hqk), ih]

theorem remove_m_values (c : CacheMap K V) (key : K) :
    (c.remove key).m_values = c.m_values.filter (fun q => !(q.1 == key)) := rfl

end CacheMap

/-! ## Bounded size and FIFO eviction -/

section Claims

variable {K V : Type}

/-- With a limit of at least one, `N` successive `add` calls on an empty cache
are all defined and leave `size() ≤ L`, and `size() = N` when `N ≤ L`. -/
theorem addAll_size_of_pos (L : Nat) (kvs : List (K × V)) (hL : 1 ≤ L) :
    ∃ c, (CacheMap.mk ([] : List (K × V)) L).addAll kvs = some c ∧ c.size ≤ L ∧
      (kvs.length ≤ L → c.size = kvs.length) := by
  refine ⟨_, CacheMap.addAll_eq kvs ⟨[], L⟩ hL (Nat.zero_le L), ?_, ?_⟩
  · simp only [CacheMap.size, List.length_drop, List.length_append, List.length_nil]
    omega
  · intro h
    simp only [CacheMap.size, List.length_drop, List.length_append, List.length_nil]
    omega

/-- C1 (bounded size), at the input where the code departs from it: on an empty
cache whose limit is 0 the first `add` takes the at-limit branch and assigns to
`back()` of an empty vector, so no state with `size() ≤ 0` is produced. -/
theorem bounded_size_undefined_at_limit_zero :
    (CacheMap.mk ([] : List (Nat × Nat)) 0).addAll [(1, 10)] = none := by
  decide

/-- C2 (FIFO eviction): for `L ≥ 1` and `L + 1` entries with pairwise distinct keys
added in order to an empty cache of limit `L`, all adds are defined, `get` of the
first key is absent and `get` of every later key returns the value added with it. -/
theorem fifo_eviction [DecidableEq K] (L : Nat) (kvs : List (K × V)) (hL : 1 ≤ L)
    (hlen : kvs.length = L + 1) (hkeys : (kvs.map Prod.fst).Nodup) :
    ∃ c, (CacheMap.mk ([] : List (K × V)) L).addAll kvs = some c ∧
      ∀ (i : Nat) (hi : i < kvs.length),
        (i = 0 → (c.get kvs[i].1).1 = none) ∧
        (1 ≤ i → (c.get kvs[i].1).1 = some kvs[i].2) := by
  refine ⟨_, CacheMap.addAll_eq kvs ⟨[], L⟩ hL (Nat.zero_le L), ?_⟩
  have hd : ([] : List (K × V)).length + kvs.length - L = 1 := by
    simp only [List.length_nil]; omega
  simp only [hd, List.nil_append]
  match kvs, hlen, hkeys with
  | kv :: rest, _, hkeys =>
    rw [List.map_cons, List.nodup_cons] at hkeys
    intro i hi
    constructor
    · intro h0
      subst h0
      rw [CacheMap.get_eq_none_iff]
      simpa using hkeys.1
    · intro h1
      obtain ⟨j, rfl⟩ : ∃ j, i = j + 1 := ⟨i - 1, by omega⟩
      have hj : j < rest.length := by simpa using hi
      have hmem : (rest[j].1, rest[j].2) ∈ rest := by simp
      simpa using CacheMap.get_of_mem_nodup ⟨rest, L⟩ rest[j].1 rest[j].2 hkeys.2 hmem

/-- Instance of C2 with limit 2 and keys 1, 2, 3. -/
theorem fifo_eviction_witness :
    (1 ≤ 2 ∧ [(1, 10), (2, 20), (3, 30)].length = 2 + 1 ∧
      (([(1, 10), (2, 20), (3, 30)] : List (Nat × Nat)).map Prod.fst).Nodup) ∧
    ∃ c, (CacheMap.mk ([] : List (Nat × Nat)) 2).addAll [(1, 10), (2, 20), (3, 30)] = some c ∧
      ∀ (i : Nat) (hi : i < [(1, 10), (2, 20), (3, 30)].length),
        (i = 0 → (c.get ([(1, 10), (2, 20), (3, 30)] : List (Nat × Nat))[i].1).1 = none) ∧
        (1 ≤ i → (c.get ([(1, 10), (2, 20), (3, 30)] : List (Nat × Nat))[i].1).1
          = some ([(1, 10), (2, 20), (3, 30)] : List (Nat × Nat))[i].2) :=
  ⟨⟨by decide, by decide, by decide⟩,
    fifo_eviction 2 [(1, 10), (2, 20), (3, 30)] (by decide) (by decide) (by decide)⟩

/-! ## The effect of `add`, `get` and `limit` -/

/-- C3 as stated fails on the empty cache with limit 0: the at-limit branch is
taken, but `add` yields no entry sequence at all, so in particular not the empty
sequence without its first entry followed by the new pair. -/
theorem add_at_limit_zero_counterexample :
    ([] : List (Nat × Nat)).length ≥ 0 ∧
    ¬ ∃ c, (CacheMap.mk ([] : List (Nat × Nat)) 0).add 1 10 = some c ∧
      c.m_values = ([] : List (Nat × Nat)).tail ++ [(1, 10)] := by
  decide

/-- C3, amended: on entries `e` with limit `L`, where `e` is non-empty or shorter
than `L`, `add(key, value)` is defined and keeps the limit; if `|e| ≥ L` the new
sequence is `e` without its first entry followed by `(key, value)` and the size is
unchanged; if `|e| < L` it is `e` followed by `(key, value)`. -/
theorem add_spec (e : List (K × V)) (L : Nat) (key : K) (value : V)
    (hdef : e ≠ [] ∨ e.length < L) :
    ∃ c, (CacheMap.mk e L).add key value = some c ∧ c.m_sizeLimit = L ∧
      (L ≤ e.length → c.m_values = e.tail ++ [(key, value)] ∧ c.size = e.length) ∧
      (e.length < L → c.m_values = e ++ [(key, value)]) := by
  by_cases hlt : e.length < L
  · refine ⟨_, CacheMap.add_of_lt ⟨e, L⟩ key value hlt, rfl, ?_, fun _ => rfl⟩
    intro hge
    omega
  · have hne : e ≠ [] := hdef.resolve_right hlt
    refine ⟨_, CacheMap.add_of_ge ⟨e, L⟩ key value (Nat.not_lt.mp hlt) hne, rfl, ?_, ?_⟩
    · intro _
      refine ⟨rfl, ?_⟩
      cases e with
      | nil => exact absurd rfl hne
      | cons y ys => simp [CacheMap.size]
    · intro h
      exact absurd h hlt

/-- Instance of the amended C3 on a full cache of limit 2. -/
theorem add_spec_witness :
    (([(1, 10), (2, 20)] : List (Nat × Nat)) ≠ [] ∨ [(1, 10), (2, 20)].length < 2) ∧
    ∃ c, (CacheMap.mk [(1, 10), (2, 20)] 2).add 3 30 = some c ∧ c.m_sizeLimit = 2 ∧
      (2 ≤ [(1, 10), (2, 20)].length →
        c.m_values = ([(1, 10), (2, 20)] : List (Nat × Nat)).tail ++ [(3, 30)] ∧
        c.size = [(1, 10), (2, 20)].length) ∧
      ([(1, 10), (2, 20)].length < 2 → c.m_values = [(1, 10), (2, 20)] ++ [(3, 30)]) :=
  ⟨by decide, add_spec [(1, 10), (2, 20)] 2 3 30 (by decide)⟩

/-- C4 as stated fails for limit 0: after `add(x, v)` on the empty cache there is
no state in which `get(x)` returns `v`. -/
theorem round_trip_limit_zero_counterexample :
    ¬ ∃ c, (((CacheMap.mk ([] : List (Nat × Nat)) 0).get 7).2.add 7 42 = some c ∧
      (c.get 7).1 = some 42) := by
  decide

/-- C4, amended: for every key `x`, value `v` and limit `L ≥ 1`, `get(x)` on the
empty cache is absent, `add(x, v)` is then defined, and `get(x)` afterwards
returns `v`. -/
theorem cache_miss_round_trip [DecidableEq K] (x : K) (v : V) (L : Nat) (hL : 1 ≤ L) :
    ((CacheMap.mk ([] : List (K × V)) L).get x).1 = none ∧
    ∃ c, ((CacheMap.mk ([] : List (K × V)) L).get x).2.add x v = some c ∧
      (c.get x).1 = some v := by
  refine ⟨rfl, ⟨[(x, v)], L⟩, ?_, ?_⟩
  · rw [CacheMap.get_snd]
    exact CacheMap.add_of_lt ⟨[], L⟩ x v hL
  · simp [CacheMap.get]

/-- Instance of the amended C4 with the default limit 20. -/
theorem cache_miss_round_trip_witness :
    1 ≤ 20 ∧ ((CacheMap.mk ([] : List (Nat × Nat)) 20).get 7).1 = none ∧
    ∃ c, ((CacheMap.mk ([] : List (Nat × Nat)) 20).get 7).2.add 7 42 = some c ∧
      (c.get 7).1 = some 42 :=
  ⟨by decide, cache_miss_round_trip 7 42 20 (by decide)⟩

/-- C5 (re-limiting clears): in every state and for every `m`, after `limit(m)`
the size is 0, `get` of every key is absent and `limit()` is `m`. -/
theorem limit_clears [DecidableEq K] (c : CacheMap K V) (m : Nat) :
    (c.limit m).size = 0 ∧ (∀ key, ((c.limit m).get key).1 = none) ∧
      (c.limit m).limit_get = m :=
  ⟨rfl, fun _ => rfl, rfl⟩

/-- C6 (`get` has no side effect): `get` returns the cache with the same entry
sequence and limit; hence on a full cache whose oldest entry has key `k0`, held by
no other entry, `get(k0)` followed by `add` of another key leaves the entries after
the oldest followed by the new pair, and `get(k0)` is then absent. -/
theorem get_no_side_effect [DecidableEq K] (c : CacheMap K V) (key : K) :
    (c.get key).2.m_values = c.m_values ∧ (c.get key).2.m_sizeLimit = c.m_sizeLimit ∧
    ∀ (k0 : K) (v0 : V) (rest : List (K × V)) (knew : K) (vnew : V),
      c.m_values = (k0, v0) :: rest → c.m_sizeLimit ≤ c.m_values.length →
      k0 ∉ rest.map Prod.fst → knew ≠ k0 →
      ∃ c', (c.get k0).2.add knew vnew = some c' ∧
        c'.m_values = rest ++ [(knew, vnew)] ∧ (c'.get k0).1 = none := by
  refine ⟨by rw [CacheMap.get_snd], by rw [CacheMap.get_snd], ?_⟩
  intro k0 v0 rest knew vnew hc hfull hk0 hnew
  have hne : c.m_values ≠ [] := by rw [hc]; simp
  refine ⟨_, by rw [CacheMap.get_snd]; exact CacheMap.add_of_ge c knew vnew hfull hne, ?_, ?_⟩
  · rw [hc]; rfl
  · rw [CacheMap.get_eq_none_iff, hc]
    simp only [List.tail_cons, List.map_append, List.map_cons, List.map_nil, List.mem_append,
      List.mem_singleton, not_or]
    exact ⟨hk0, fun h => hnew h.symm⟩

/-- Instance of C6 on a full cache of limit 2 whose oldest key is 1. -/
theorem get_no_side_effect_witness :
    ((CacheMap.mk [(1, 10), (2, 20)] 2).m_values = (1, 10) :: [(2, 20)] ∧
      (CacheMap.mk [(1, 10), (2, 20)] 2).m_sizeLimit
        ≤ (CacheMap.mk [(1, 10), (2, 20)] 2).m_values.length ∧
      1 ∉ ([(2, 20)] : List (Nat × Nat)).map Prod.fst ∧ 3 ≠ 1) ∧
    ∃ c', ((CacheMap.mk [(1, 10), (2, 20)] 2).get 1).2.add 3 30 = some c' ∧
      c'.m_values = [(2, 20)] ++ [(3, 30)] ∧ (c'.get 1).1 = none :=
  ⟨⟨rfl, by decide, by decide, by decide⟩,
    (get_no_side_effect (CacheMap.mk [(1, 10), (2, 20)] 2) 1).2.2 1 10 [(2, 20)] 3 30 rfl
      (by decide) (by decide) (by decide)⟩

/-! ## `remove` and key uniqueness -/

/-- C7 (`remove`): the entries after `remove(key)` are the old ones with a key
different from `key`, in order; `get(key)` is then absent, `get` of any other key
returns what it did before, the limit is unchanged, and removing a key held by no
entry leaves the cache unchanged. -/
theorem remove_spec [DecidableEq K] (c : CacheMap K V) (key : K) :
    (c.remove key).m_values = c.m_values.filter (fun q => decide (q.1 ≠ key)) ∧
    ((c.remove key).get key).1 = none ∧
    (∀ k, k ≠ key → ((c.remove key).get k).1 = (c.get k).1) ∧
    (c.remove key).m_sizeLimit = c.m_sizeLimit ∧
    (key ∉ c.m_values.map Prod.fst → c.remove key = c) := by
  have hfilter : c.m_values.filter (fun q => !(q.1 == key))
      = c.m_values.filter (fun q => decide (q.1 ≠ key)) := by
    congr 1
    funext q
    by_cases h : q.1 = key <;> simp [h]
  refine ⟨by rw [CacheMap.remove_m_values, hfilter], ?_, ?_, rfl, ?_⟩
  · rw [CacheMap.get_eq_none_iff, CacheMap.remove_m_values]
    simp
  · intro k hk
    rw [CacheMap.get_fst, CacheMap.get_fst, CacheMap.remove_m_values,
      CacheMap.find_filter_ne c.m_values key k hk]
  · intro hnot
    have hall : c.m_values.filter (fun q => !(q.1 == key)) = c.m_values := by
      rw [List.filter_eq_self]
      intro q hq
      have : q.1 ≠ key := fun h => hnot (h ▸ List.mem_map_of_mem Prod.fst hq)
      simpa using this
    cases c with
    | mk vs lim =>
      show CacheMap.mk (vs.filter (fun q => !(q.1 == key))) lim = CacheMap.mk vs lim
      rw [show vs.filter (fun q => !(q.1 == key)) = vs from hall]

/-- Instance of C7: removing key 2, and removing the absent key 9. -/
theorem remove_spec_witness :
    (1 ≠ 2 ∧ 9 ∉ ([(1, 10), (2, 20), (3, 30)] : List (Nat × Nat)).map Prod.fst) ∧
    (((CacheMap.mk [(1, 10), (2, 20), (3, 30)] 3).remove 2).get 1).1
      = ((CacheMap.mk [(1, 10), (2, 20), (3, 30)] 3).get 1).1 ∧
    (CacheMap.mk [(1, 10), (2, 20), (3, 30)] 3).remove 9
      = CacheMap.mk [(1, 10), (2, 20), (3, 30)] 3 :=
  ⟨⟨by decide, by decide⟩,
    (remove_spec (CacheMap.mk [(1, 10), (2, 20), (3, 30)] 3) 2).2.2.1 1 (by decide),
    (remove_spec (CacheMap.mk [(1, 10), (2, 20), (3, 30)] 3) 9).2.2.2.2 (by decide)⟩

/-- C8 as stated fails: `add` does not look for an existing entry, so adding a key
that is already present to a cache below its limit yields two entries with that
key. -/
theorem add_duplicate_key_counterexample :
    (CacheMap.mk [((1 : Nat), (10 : Nat))] 20).UniqueKeys ∧
    ∃ c, (CacheMap.mk [((1 : Nat), (10 : Nat))] 20).add 1 11 = some c ∧ ¬ c.UniqueKeys := by
  refine ⟨by simp [CacheMap.UniqueKeys], ⟨[(1, 10), (1, 11)], 20⟩, by decide, ?_⟩
  simp [CacheMap.UniqueKeys]

/-- C8, amended: if no two entries share a key, then none do after `remove`,
`clear` or `limit`, nor after `add` of a key that no entry holds, made on a cache
that is non-empty or below its limit (where `add` is defined). -/
theorem uniqueKeys_preserved [DecidableEq K] (c : CacheMap K V) (hu : c.UniqueKeys) :
    (∀ key, (c.remove key).UniqueKeys) ∧ c.clear.UniqueKeys ∧
    (∀ m, (c.limit m).UniqueKeys) ∧
    ∀ key value, key ∉ c.m_values.map Prod.fst →
      (c.m_values ≠ [] ∨ c.m_values.length < c.m_sizeLimit) →
      ∃ c', c.add key value = some c' ∧ c'.UniqueKeys := by
  refine ⟨fun key => CacheMap.uniqueKeys_filter c.m_values _ hu, List.nodup_nil,
    fun _ => List.nodup_nil, ?_⟩
  intro key value hnew hdef
  have happ : ∀ l : List (K × V), (l.map Prod.fst).Nodup → key ∉ l.map Prod.fst →
      ((l ++ [(key, value)]).map Prod.fst).Nodup := by
    intro l hl hk
    rw [List.map_append, List.nodup_append]
    refine ⟨hl, by simp, ?_⟩
    intro a ha hb
    simp only [List.map_cons, List.map_nil, List.mem_singleton] at hb
    exact hk (hb ▸ ha)
  by_cases hlt : c.m_values.length < c.m_sizeLimit
  · exact ⟨_, CacheMap.add_of_lt c key value hlt, happ _ hu hnew⟩
  · have hne : c.m_values ≠ [] := hdef.resolve_right hlt
    refine ⟨_, CacheMap.add_of_ge c key value (Nat.not_lt.mp hlt) hne, ?_⟩
    apply happ
    · exact ((List.tail_sublist c.m_values).map Prod.fst).nodup hu
    · intro h
      exact hnew (((List.tail_sublist c.m_values).map Prod.fst).subset h)

/-- Instance of the amended C8: a new key added to a full cache of limit 2. -/
theorem uniqueKeys_preserved_witness :
    ((CacheMap.mk [((1 : Nat), (10 : Nat)), (2, 20)] 2).UniqueKeys ∧
      3 ∉ ([(1, 10), (2, 20)] : List (Nat × Nat)).map Prod.fst ∧
      (([(1, 10), (2, 20)] : List (Nat × Nat)) ≠ [] ∨ [(1, 10), (2, 20)].length < 2)) ∧
    ∃ c', (CacheMap.mk [((1 : Nat), (10 : Nat)), (2, 20)] 2).add 3 30 = some c' ∧
      c'.UniqueKeys :=
  ⟨⟨by simp [CacheMap.UniqueKeys], by decide, by decide⟩,
    (uniqueKeys_preserved (CacheMap.mk [(1, 10), (2, 20)] 2)
      (by simp [CacheMap.UniqueKeys])).2.2.2 3 30 (by decide) (by decide)⟩

/-! ## Totality -/

/-- C9 (totality), at the input where the code departs from it: after `limit(0)`
the cache is empty with limit 0, and `add` then takes the at-limit branch, where
`std::shift_left` moves nothing and `m_values.back()` has no slot to write. -/
theorem add_after_limit_zero_undefined (c : CacheMap K V) (key : K) (value : V) :
    (c.limit 0).add key value = none := by
  simp [CacheMap.limit, CacheMap.add, shift_left, assign_back]

/-- The call `add` is defined exactly when the cache is non-empty or below its
limit, that is in every state other than the empty cache with limit 0. -/
theorem add_isSome_iff (c : CacheMap K V) (key : K) (value : V) :
    (c.add key value).isSome ↔ (c.m_values ≠ [] ∨ c.m_values.length < c.m_sizeLimit) := by
  constructor
  · intro h
    by_contra hn
    simp only [not_or, not_not, not_lt] at hn
    have hc : c = ⟨[], 0⟩ := by
      cases c with
      | mk vs lim =>
        simp only at hn
        obtain ⟨h1, h2⟩ := hn
        subst h1
        simp only [List.length_nil, Nat.le_zero] at h2
        subst h2
        rfl
    rw [hc, CacheMap.add_empty_zero] at h
    simp at h
  · intro h
    by_cases hlt : c.m_values.length < c.m_sizeLimit
    · simp [CacheMap.add_of_lt c key value hlt]
    · simp [CacheMap.add_of_ge c key value (Nat.not_lt.mp hlt) (h.resolve_right hlt)]

/-! ## `FunCache::get` -/

/-- The two paths of `FunCache::get`: if the cache holds an entry for `key(args)`,
`get` returns the handle of the first such entry and leaves cache, world and the
log of fetch invocations unchanged; otherwise `F(args..., false)` is the one
invocation appended to the log, and with `h` its handle the outcome of `get` is
that of `CacheMap::add(key(args), h)` on the old cache, with `h` returned. -/
theorem funCache_get_spec {A W H : Type} [DecidableEq A] (F : A → Bool → W → H × W)
    (self : FunCache A H) (args : A) (w : W) (log : List (A × Bool)) :
    (∀ q, self.m_cache.m_values.find? (fun q => decide (q.1 = ExtractFun.key args)) = some q →
      FunCache.get (logged F) self args (w, log) = some (q.2, self, (w, log))) ∧
    (ExtractFun.key args ∉ self.m_cache.m_values.map Prod.fst →
      FunCache.get (logged F) self args (w, log)
        = (self.m_cache.add (ExtractFun.key args) (F args false w).1).map
            (fun cache => ((F args false w).1, FunCache.mk cache,
              ((F args false w).2, log ++ [(args, false)])))) := by
  have hsnd := CacheMap.get_snd self.m_cache (ExtractFun.key args)
  have hfst := CacheMap.get_fst self.m_cache (ExtractFun.key args)
  constructor
  · intro q hq
    replace hfst := hfst.trans (congrArg (Option.map Prod.snd) hq)
    unfold FunCache.get
    split
    · rename_i v cache heq
      rw [heq] at hfst hsnd
      simp only [Option.map_some', Option.some.injEq] at hfst hsnd
      subst hfst
      subst hsnd
      rfl
    · rename_i cache heq
      rw [heq] at hfst
      simp at hfst
  · intro hmiss
    have hnone := (CacheMap.get_eq_none_iff self.m_cache (ExtractFun.key args)).mpr hmiss
    unfold FunCache.get
    split
    · rename_i v cache heq
      rw [heq] at hnone
      simp at hnone
    · rename_i cache heq
      rw [heq] at hsnd
      simp only at hsnd
      subst hsnd
      simp only [ExtractFun.invoke, logged]
      cases self.m_cache.add (ExtractFun.key args) (F args false w).1 <;> rfl

/-- The two paths of `FunCache::get` on a cache holding the key of argument 1, hit
with argument 1 and missed with argument 2. -/
theorem funCache_get_spec_witness :
    (([(((1 : Nat), false), (5 : Nat))].find? (fun q => decide (q.1 = ExtractFun.key 1))
        = some ((1, false), 5)) ∧
      ExtractFun.key 2 ∉ ([(((1 : Nat), false), (5 : Nat))]).map Prod.fst) ∧
    FunCache.get (logged (fun (a : Nat) (_ : Bool) (n : Nat) => (100 * a + n, n + 1)))
        (FunCache.mk (CacheMap.mk [((1, false), 5)] 20)) 1 (0, [])
      = some (5, FunCache.mk (CacheMap.mk [((1, false), 5)] 20), (0, [])) ∧
    FunCache.get (logged (fun (a : Nat) (_ : Bool) (n : Nat) => (100 * a + n, n + 1)))
        (FunCache.mk (CacheMap.mk [((1, false), 5)] 20)) 2 (0, [])
      = some (200, FunCache.mk (CacheMap.mk [((1, false), 5), ((2, false), 200)] 20),
          (1, [(2, false)])) :=
  ⟨⟨by decide, by decide⟩,
    (funCache_get_spec (fun (a : Nat) (_ : Bool) (n : Nat) => (100 * a + n, n + 1))
      (FunCache.mk (CacheMap.mk [((1, false), 5)] 20)) 1 0 []).1 ((1, false), 5) (by decide),
    (funCache_get_spec (fun (a : Nat) (_ : Bool) (n : Nat) => (100 * a + n, n + 1))
      (FunCache.mk (CacheMap.mk [((1, false), 5)] 20)) 2 0 []).2 (by decide)⟩

/-- The miss path of `FunCache::get` in every state other than the empty cache
with limit 0: `F(args..., false)` is invoked once, its handle `h` is returned, and
the cache afterwards is `CacheMap::add(key(args), h)` of the old cache. -/
theorem funCache_get_miss_defined {A W H : Type} [DecidableEq A] (F : A → Bool → W → H × W)
    (self : FunCache A H) (args : A) (w : W) (log : List (A × Bool))
    (hmiss : ExtractFun.key args ∉ self.m_cache.m_values.map Prod.fst)
    (hdef : self.m_cache.m_values ≠ [] ∨ self.m_cache.m_values.length < self.m_cache.m_sizeLimit) :
    ∃ cache, self.m_cache.add (ExtractFun.key args) (F args false w).1 = some cache ∧
      FunCache.get (logged F) self args (w, log)
        = some ((F args false w).1, FunCache.mk cache,
            ((F args false w).2, log ++ [(args, false)])) := by
  obtain ⟨cache, hadd⟩ := Option.isSome_iff_exists.mp
    ((add_isSome_iff self.m_cache (ExtractFun.key args) (F args false w).1).mpr hdef)
  refine ⟨cache, hadd, ?_⟩
  have hnone := (CacheMap.get_eq_none_iff self.m_cache (ExtractFun.key args)).mpr hmiss
  have hsnd := CacheMap.get_snd self.m_cache (ExtractFun.key args)
  unfold FunCache.get
  split
  · rename_i v cache1 heq
    rw [heq] at hnone
    simp at hnone
  · rename_i cache1 heq
    rw [heq] at hsnd
    simp only at hsnd
    subst hsnd
    simp only [ExtractFun.invoke, logged, hadd]

/-- C10 (`FunCache::get`), at the input where the code departs from the claim:
after `limit(0)` the cache is empty with limit 0, so `get(args...)` finds no entry
and takes the miss path; there `CacheMap::add` assigns to `back()` of an empty
vector, which is undefined: the call has no outcome, no handle `h` is returned and
no cache results. -/
theorem funCache_get_undefined_at_limit_zero {A W H : Type} [DecidableEq A]
    (F : A → Bool → W → H × W) (self : FunCache A H) (args : A) (w : W)
    (log : List (A × Bool)) :
    ((self.limit 0).m_cache.get (ExtractFun.key args)).1 = none ∧
    (self.limit 0).m_cache.add (ExtractFun.key args) (F args false w).1 = none ∧
    FunCache.get (logged F) (self.limit 0) args (w, log) = none :=
  ⟨rfl, rfl, rfl⟩

end Claims

/-! ## The partition loop of `checkAllUpdates` -/

section Batches

variable {I U E : Type}

theorem batchLoop_of_lt (modIDs : List I) (maxBatchSize : Nat) (hpos : 0 < maxBatchSize)
    (i : Nat) (modBatches : List (List I)) (h : i < modIDs.length) :
    batchLoop modIDs maxBatchSize hpos i modBatches
      = batchLoop modIDs maxBatchSize hpos (i + maxBatchSize)
          (modBatches ++ [(modIDs.take (min modIDs.length (i + maxBatchSize))).drop i]) := by
  rw [batchLoop, dif_pos h]

theorem batchLoop_of_ge (modIDs : List I) (maxBatchSize : Nat) (hpos : 0 < maxBatchSize)
    (i : Nat) (modBatches : List (List I)) (h : ¬ i < modIDs.length) :
    batchLoop modIDs maxBatchSize hpos i modBatches = modBatches := by
  rw [batchLoop, dif_neg h]

/-- Concatenating the batches gives what was collected before, followed by the
part of the ID list from index `i` on. -/
theorem batchLoop_join (modIDs : List I) (maxBatchSize : Nat) (hpos : 0 < maxBatchSize) :
    ∀ (d i : Nat) (modBatches : List (List I)), modIDs.length - i = d →
      (batchLoop modIDs maxBatchSize hpos i modBatches).flatten
        = modBatches.flatten ++ modIDs.drop i := by
  intro d
  induction d using Nat.strong_induction_on with
  | _ d ih =>
    intro i modBatches hd
    by_cases h : i < modIDs.length
    · rw [batchLoop_of_lt modIDs maxBatchSize hpos i modBatches h,
        ih (modIDs.length - (i + maxBatchSize)) (by omega) _ _ rfl]
      rw [List.flatten_append, List.flatten_singleton, List.append_assoc]
      congr 1
      show List.drop i (List.take (min modIDs.length (i + maxBatchSize)) modIDs)
        ++ List.drop (i + maxBatchSize) modIDs = List.drop i modIDs
      by_cases hle : i + maxBatchSize ≤ modIDs.length
      · rw [Nat.min_eq_right hle]
        have hi : i ≤ (modIDs.take (i + maxBatchSize)).length := by
          rw [List.length_take]; omega
        rw [← List.drop_append_of_le_length hi, List.take_append_drop]
      · have hn : modIDs.length ≤ i + maxBatchSize := by omega
        rw [Nat.min_eq_left hn, List.take_length, List.drop_eq_nil_of_le hn,
          List.append_nil]
    · rw [batchLoop_of_ge modIDs maxBatchSize hpos i modBatches h,
        List.drop_eq_nil_of_le (by omega), List.append_nil]

/-- Every batch the loop adds is a slice `[j, e)` of the ID list with
`j < e ≤ modCount` and `e ≤ j + maxBatchSize`. -/
theorem batchLoop_mem (modIDs : List I) (maxBatchSize : Nat) (hpos : 0 < maxBatchSize) :
    ∀ (d i : Nat) (modBatches : List (List I)), modIDs.length - i = d →
      ∀ b ∈ batchLoop modIDs maxBatchSize hpos i modBatches,
        b ∈ modBatches ∨ ∃ j e, j < e ∧ e ≤ modIDs.length ∧ e ≤ j + maxBatchSize ∧
          b = (modIDs.take e).drop j := by
  intro d
  induction d using Nat.strong_induction_on with
  | _ d ih =>
    intro i modBatches hd b hb
    by_cases h : i < modIDs.length
    · rw [batchLoop_of_lt modIDs maxBatchSize hpos i modBatches h] at hb
      rcases ih (modIDs.length - (i + maxBatchSize)) (by omega) _ _ rfl b hb with h1 | h1
      · rcases List.mem_append.mp h1 with h2 | h2
        · exact Or.inl h2
        · right
          refine ⟨i, min modIDs.length (i + maxBatchSize), by omega, by omega, by omega, ?_⟩
          simpa using h2
      · exact Or.inr h1
    · rw [batchLoop_of_ge modIDs maxBatchSize hpos i modBatches h] at hb
      exact Or.inl hb

theorem slice_length (modIDs : List I) (j e : Nat) (he : e ≤ modIDs.length) :
    ((modIDs.take e).drop j).length = e - j := by
  rw [List.length_drop, List.length_take, Nat.min_eq_left he]

/-- With `maxMods = 200` the batch size bound never exceeds 200. -/
theorem maxBatchSize_le (modCount : Nat) :
    modCount / (modCount / 200 + 1) + 1 ≤ 200 := by
  have h1 : modCount < 200 * (modCount / 200 + 1) := Nat.lt_mul_div_succ modCount (by decide)
  have h2 : modCount / (modCount / 200 + 1) < 200 := by
    rw [Nat.div_lt_iff_lt_mul (Nat.succ_pos _)]
    exact h1
  omega

theorem checkAllUpdates_of_gt (modIDs : List I) (hn : 200 < modIDs.length) :
    (checkAllUpdates modIDs : ServerRequest I U E)
      = ServerRequest.runWithCallback
          (batchLoop modIDs (modIDs.length / (modIDs.length / 200 + 1) + 1)
            (Nat.succ_pos _) 0 []) := by
  have hne : modIDs.isEmpty = false := by
    cases modIDs with
    | nil => simp at hn
    | cons x xs => rfl
  simp only [checkAllUpdates, hne, Bool.false_eq_true, if_false, Nat.not_le.mpr hn]

/-! ## One step of `queueBatches` -/

theorem queueBatches_nil (transport : Nat → List I → Except E (List U)) (accum : List U)
    (issued : Nat) (trace : List (Event I U E)) :
    queueBatches transport ⟨[], accum, issued, trace⟩ = none := by
  rw [queueBatches]
  rfl

theorem queueBatches_error (transport : Nat → List I → Except E (List U))
    (bs : List (List I)) (b : List I) (accum : List U) (issued : Nat)
    (trace : List (Event I U E)) (e : E) (h : transport issued b = .error e) :
    queueBatches transport ⟨bs ++ [b], accum, issued, trace⟩
      = some ⟨bs ++ [b], accum, issued + 1,
          trace ++ [Event.request b, Event.response (.error e), Event.resolve (.error e)]⟩ := by
  rw [queueBatches]
  simp only [List.getLast?_concat, h]

theorem queueBatches_ok_last (transport : Nat → List I → Except E (List U))
    (b : List I) (accum : List U) (issued : Nat)
    (trace : List (Event I U E)) (vs : List U) (h : transport issued b = .ok vs) :
    queueBatches transport ⟨[b], accum, issued, trace⟩
      = some ⟨[b], accum ++ vs, issued + 1,
          trace ++ [Event.request b, Event.response (.ok vs),
            Event.resolve (.ok (accum ++ vs))]⟩ := by
  rw [queueBatches]
  simp [h]

theorem queueBatches_ok_more (transport : Nat → List I → Except E (List U))
    (bs : List (List I)) (b : List I) (accum : List U) (issued : Nat)
    (trace : List (Event I U E)) (vs : List U) (h : transport issued b = .ok vs)
    (hbs : bs ≠ []) :
    queueBatches transport ⟨bs ++ [b], accum, issued, trace⟩
      = queueBatches transport ⟨bs, accum ++ vs, issued + 1,
          trace ++ [Event.request b, Event.response (.ok vs)]⟩ := by
  have hlen : (bs ++ [b]).length > 1 := by
    have := List.length_pos.mpr hbs
    simp only [List.length_append, List.length_singleton]
    omega
  rw [queueBatches]
  simp only [List.getLast?_concat, h, hlen, dite_true, List.dropLast_concat]

/-! ## Traces -/

theorem requests_append (t1 t2 : List (Event I U E)) :
    Event.requests (t1 ++ t2) = Event.requests t1 ++ Event.requests t2 := by
  induction t1 with
  | nil => rfl
  | cons ev rest ih =>
    cases ev <;> simp [Event.requests, ih]

theorem resolves_append (t1 t2 : List (Event I U E)) :
    Event.resolves (t1 ++ t2) = Event.resolves t1 ++ Event.resolves t2 := by
  induction t1 with
  | nil => rfl
  | cons ev rest ih =>
    cases ev <;> simp [Event.resolves, ih]

theorem requests_exchanges (order : List (List I)) :
    ∀ results : List (Except E (List U)), results.length = order.length →
      Event.requests (exchanges order results : List (Event I U E)) = order := by
  induction order with
  | nil =>
    intro results _
    cases results <;> rfl
  | cons b order ih =>
    intro results hlen
    cases results with
    | nil => simp at hlen
    | cons r results =>
      simp only [exchanges, Event.requests]
      rw [ih results (by simpa using hlen)]

theorem resolves_exchanges (order : List (List I)) :
    ∀ results : List (Except E (List U)),
      Event.resolves (exchanges order results : List (Event I U E)) = [] := by
  induction order with
  | nil =>
    intro results
    cases results <;> rfl
  | cons b order ih =>
    intro results
    cases results with
    | nil => rfl
    | cons r results =>
      simp only [exchanges, Event.resolves]
      exact ih results

theorem answers_length (transport : Nat → List I → Except E (List U))
    (order : List (List I)) : ∀ k, (answers transport k order).length = order.length := by
  induction order with
  | nil => intro k; rfl
  | cons b order ih => intro k; simp [answers, ih]

/-! ## Runs of `queueBatches` -/

/-- A chain all of whose fetches succeed: the batches are requested from the
last to the first, and the accumulated results are resolved once, at the end. -/
theorem queueBatches_run_ok (transport : Nat → List I → Except E (List U)) :
    ∀ (order : List (List I)) (rs : List (List U)) (accum : List U) (issued : Nat)
      (trace : List (Event I U E)), order ≠ [] →
      answers transport issued order = rs.map Except.ok →
      queueBatches transport ⟨order.reverse, accum, issued, trace⟩
        = some ⟨order.reverse.take 1, accum ++ rs.flatten, issued + order.length,
            trace ++ exchanges order (rs.map Except.ok)
              ++ [Event.resolve (.ok (accum ++ rs.flatten))]⟩ := by
  intro order
  induction order with
  | nil => intro _ _ _ _ h; exact absurd rfl h
  | cons b rest ih =>
    intro rs accum issued trace _ hans
    cases rs with
    | nil => simp [answers] at hans
    | cons r rs =>
      simp only [answers, List.map_cons, List.cons.injEq] at hans
      obtain ⟨hb, hrest⟩ := hans
      rw [List.reverse_cons]
      by_cases hr : rest = []
      · subst hr
        have hrs : rs = [] := by
          cases rs with
          | nil => rfl
          | cons x xs => simp [answers] at hrest
        subst hrs
        simp only [List.reverse_nil, List.nil_append]
        rw [queueBatches_ok_last transport b accum issued trace r hb]
        simp [exchanges]
      · have hrev : rest.reverse ≠ [] := by simpa using hr
        rw [queueBatches_ok_more transport rest.reverse b accum issued trace r hb hrev,
          ih rs (accum ++ r) (issued + 1) _ hr hrest]
        have htake : (rest.reverse ++ [b]).take 1 = rest.reverse.take 1 := by
          apply List.take_append_of_le_length
          have := List.length_pos.mpr hrev
          omega
        rw [htake]
        simp only [List.flatten_cons, List.append_assoc, List.length_cons, exchanges,
          List.map_cons, List.cons_append, List.nil_append]
        congr 2
        omega

/-- A chain whose fetches succeed for the batches `pre` and then fail for `b`: the
error is resolved at once and the batches under `b` are never requested. -/
theorem queueBatches_run_error (transport : Nat → List I → Except E (List U)) :
    ∀ (pre : List (List I)) (b : List I) (post : List (List I)) (rs : List (List U))
      (e : E) (accum : List U) (issued : Nat) (trace : List (Event I U E)),
      answers transport issued (pre ++ [b]) = rs.map Except.ok ++ [Except.error e] →
      queueBatches transport ⟨(pre ++ b :: post).reverse, accum, issued, trace⟩
        = some ⟨(b :: post).reverse, accum ++ rs.flatten, issued + pre.length + 1,
            trace ++ exchanges pre (rs.map Except.ok)
              ++ [Event.request b, Event.response (.error e), Event.resolve (.error e)]⟩ := by
  intro pre
  induction pre with
  | nil =>
    intro b post rs e accum issued trace hans
    cases rs with
    | nil =>
      simp only [List.nil_append, answers, List.map_nil, List.cons.injEq, and_true] at hans
      simp only [List.nil_append, List.reverse_cons]
      rw [queueBatches_error transport post.reverse b accum issued trace e hans]
      simp [exchanges]
    | cons r rs => cases rs <;> simp [answers] at hans
  | cons p pre ih =>
    intro b post rs e accum issued trace hans
    cases rs with
    | nil =>
      have := congrArg List.length hans
      simp [answers, answers_length] at this
    | cons r rs =>
      simp only [List.cons_append, answers, List.map_cons, List.cons.injEq] at hans
      obtain ⟨hp, hrest⟩ := hans
      have hrev : (pre ++ b :: post).reverse ≠ [] := by simp
      rw [List.cons_append, List.reverse_cons,
        queueBatches_ok_more transport _ p accum issued trace r hp hrev,
        ih b post rs e (accum ++ r) (issued + 1) _ hrest]
      simp only [List.flatten_cons, List.append_assoc, List.length_cons, exchanges,
        List.map_cons, List.cons_append, List.nil_append]
      congr 2
      omega

theorem answers_take (transport : Nat → List I → Except E (List U))
    (order : List (List I)) : ∀ (k n : Nat),
      answers transport k (order.take n) = (answers transport k order).take n := by
  induction order with
  | nil => intro k n; simp [answers]
  | cons b order ih =>
    intro k n
    cases n with
    | zero => simp [answers]
    | succ n => simp [answers, ih]

/-- A list of results is all successes, or has a first failure. -/
theorem results_cases (results : List (Except E (List U))) :
    (∃ rs : List (List U), results = rs.map Except.ok) ∨
    ∃ (rs : List (List U)) (e : E) (rest : List (Except E (List U))),
      results = rs.map Except.ok ++ Except.error e :: rest := by
  induction results with
  | nil => exact Or.inl ⟨[], rfl⟩
  | cons r results ih =>
    cases r with
    | error e => exact Or.inr ⟨[], e, results, rfl⟩
    | ok v =>
      rcases ih with ⟨rs, h⟩ | ⟨rs, e, rest, h⟩
      · exact Or.inl ⟨v :: rs, by rw [h]; rfl⟩
      · exact Or.inr ⟨v :: rs, e, rest, by rw [h]; rfl⟩

/-- If the first `rs.length` fetches succeed and the next one fails with `e`, the
chain stops there: one more request than successes, and `resolve(Err(e))`. -/
theorem queueBatches_first_error (transport : Nat → List I → Except E (List U))
    (batches : List (List I)) (rs : List (List U)) (e : E) (accum : List U) (issued : Nat)
    (trace : List (Event I U E)) (hj : rs.length < batches.length)
    (h : answers transport issued (batches.reverse.take (rs.length + 1))
      = rs.map Except.ok ++ [Except.error e]) :
    ∃ s, queueBatches transport ⟨batches, accum, issued, trace⟩ = some s ∧
      Event.requests s.trace = Event.requests trace ++ batches.reverse.take (rs.length + 1) ∧
      Event.resolves s.trace = Event.resolves trace ++ [Except.error e] := by
  have hj2 : rs.length < batches.reverse.length := by simpa using hj
  have hsplit : batches.reverse = batches.reverse.take rs.length
      ++ batches.reverse[rs.length] :: batches.reverse.drop (rs.length + 1) := by
    rw [← List.drop_eq_getElem_cons hj2, List.take_append_drop]
  have ht : batches.reverse.take (rs.length + 1)
      = batches.reverse.take rs.length ++ [batches.reverse[rs.length]] := by
    rw [List.take_succ, List.getElem?_eq_getElem hj2]
    rfl
  rw [ht] at h
  have hrun := queueBatches_run_error transport (batches.reverse.take rs.length)
    batches.reverse[rs.length] (batches.reverse.drop (rs.length + 1)) rs e accum issued
    trace h
  rw [← hsplit, List.reverse_reverse] at hrun
  have hl2 : (rs.map (Except.ok : List U → Except E (List U))).length
      = (batches.reverse.take rs.length).length := by
    simp only [List.length_map, List.length_take, List.length_reverse]
    omega
  refine ⟨_, hrun, ?_, ?_⟩
  · simp only [requests_append, requests_exchanges _ _ hl2, Event.requests, List.append_nil]
    rw [ht, List.append_assoc]
  · simp only [resolves_append, resolves_exchanges, Event.resolves, List.append_nil,
      List.nil_append]

/-- On a non-empty stack `queueBatches` always comes to rest: it has requested the
top `j` batches, for some `1 ≤ j ≤ m`, in order from the top, and has called
`resolve` exactly once. -/
theorem queueBatches_total (transport : Nat → List I → Except E (List U))
    (batches : List (List I)) (accum : List U) (issued : Nat) (trace : List (Event I U E))
    (hne : batches ≠ []) :
    ∃ s, queueBatches transport ⟨batches, accum, issued, trace⟩ = some s ∧
      (∃ j, 1 ≤ j ∧ j ≤ batches.length ∧
        Event.requests s.trace = Event.requests trace ++ batches.reverse.take j) ∧
      ∃ r, Event.resolves s.trace = Event.resolves trace ++ [r] := by
  have horder : batches.reverse ≠ [] := by simpa using hne
  have hlen0 : 0 < batches.length := List.length_pos.mpr hne
  rcases results_cases (answers transport issued batches.reverse) with ⟨rs, h⟩ | ⟨rs, e, rest, h⟩
  · have hrun := queueBatches_run_ok transport batches.reverse rs accum issued trace horder h
    rw [List.reverse_reverse] at hrun
    have hl : (rs.map (Except.ok : List U → Except E (List U))).length
        = batches.reverse.length := by
      rw [← h, answers_length]
    refine ⟨_, hrun, ⟨batches.length, hlen0, Nat.le_refl _, ?_⟩,
      Except.ok (accum ++ rs.flatten), ?_⟩
    · simp only [requests_append, requests_exchanges _ _ hl, Event.requests, List.append_nil]
      rw [List.take_of_length_le (by simp)]
    · simp only [resolves_append, resolves_exchanges, Event.resolves, List.append_nil]
  · have hl := congrArg List.length h
    simp only [answers_length, List.length_reverse, List.length_append, List.length_map,
      List.length_cons] at hl
    have hans : answers transport issued (batches.reverse.take (rs.length + 1))
        = rs.map Except.ok ++ [Except.error e] := by
      rw [answers_take, h, List.take_append_eq_append_take]
      simp
    obtain ⟨s, hs, hreq, hres⟩ := queueBatches_first_error transport batches rs e accum
      issued trace (by omega) hans
    exact ⟨s, hs, ⟨rs.length + 1, by omega, by omega, hreq⟩, _, hres⟩

/-! ## The partition of 230 IDs -/

theorem batchLoop_lengths_230 (modIDs : List I) (maxBatchSize : Nat)
    (hpos : 0 < maxBatchSize) (hn : modIDs.length = 230) (hm : maxBatchSize = 116) :
    (batchLoop modIDs maxBatchSize hpos 0 []).map List.length = [116, 114] := by
  subst hm
  rw [batchLoop_of_lt modIDs 116 hpos 0 [] (by omega),
    batchLoop_of_lt modIDs 116 hpos (0 + 116) _ (by omega),
    batchLoop_of_ge modIDs 116 hpos (0 + 116 + 116) _ (by omega)]
  simp [hn]

theorem batchLoop_230 (modIDs : List I) (hn : modIDs.length = 230) :
    (batchLoop modIDs (modIDs.length / (modIDs.length / 200 + 1) + 1) (Nat.succ_pos _) 0
      []).map List.length = [116, 114] :=
  batchLoop_lengths_230 modIDs _ (Nat.succ_pos _) hn (by rw [hn])

end Batches

/-! ## Cache keys -/

/-- C13 (cache key construction): `key(args...)` is the argument tuple followed by
the constant flag `false`, so two keys are equal exactly when the argument tuples
are; with the `operator==` of the keys, `key(a) == key(b)` holds iff `a = b`. -/
theorem key_eq_iff {A : Type} [DecidableEq A] (a b : A) :
    ExtractFun.key a = (a, false) ∧ (ExtractFun.key a = ExtractFun.key b ↔ a = b) ∧
      (decide (ExtractFun.key a = ExtractFun.key b) = true ↔ a = b) := by
  refine ⟨rfl, ?_, ?_⟩ <;> simp [ExtractFun.key]

/-! ## `checkAllUpdates` and `queueBatches` -/

section UpdateCheck

variable {I U E : Type}

/-- C14 (no batching at or below the maximum): for a non-empty ID list of at most
200 IDs, `checkAllUpdates` returns the handle of `batchedCheckUpdates(modIDs)`
itself, and running it sends exactly one request, for the whole list in order. -/
theorem checkAllUpdates_single (transport : Nat → List I → Except E (List U))
    (modIDs : List I) (hne : modIDs ≠ []) (hle : modIDs.length ≤ 200) :
    (checkAllUpdates modIDs : ServerRequest I U E) = batchedCheckUpdates modIDs ∧
    ∃ trace, (checkAllUpdates modIDs).run transport = some trace ∧
      Event.requests trace = [modIDs] := by
  have hemp : modIDs.isEmpty = false := by
    cases modIDs with
    | nil => exact absurd rfl hne
    | cons x xs => rfl
  have hc : (checkAllUpdates modIDs : ServerRequest I U E) = batchedCheckUpdates modIDs := by
    simp only [checkAllUpdates, hemp, Bool.false_eq_true, if_false, hle, if_true]
  refine ⟨hc, [Event.request modIDs, Event.response (transport 0 modIDs),
    Event.resolve (transport 0 modIDs)], ?_, rfl⟩
  rw [hc]
  rfl

/-- Instance of C14 with three IDs. -/
theorem checkAllUpdates_single_witness :
    (([1, 2, 3] : List Nat) ≠ [] ∧ [1, 2, 3].length ≤ 200) ∧
    (checkAllUpdates [1, 2, 3] : ServerRequest Nat Nat Nat) = batchedCheckUpdates [1, 2, 3] ∧
    ∃ trace, (checkAllUpdates [1, 2, 3] : ServerRequest Nat Nat Nat).run
        (fun _ batch => Except.ok batch) = some trace ∧
      Event.requests trace = [[1, 2, 3]] :=
  ⟨⟨by decide, by decide⟩,
    checkAllUpdates_single (fun _ batch => Except.ok batch) [1, 2, 3] (by decide) (by decide)⟩

/-- C15 (even batches), at the input where the code departs from it: for 230 IDs
`batchCount = 2` and `maxBatchSize = 230 / 2 + 1 = 116`, so the two batches built
hold 116 and 114 IDs, not 115 each, and differ in size by 2. -/
theorem uneven_batches_of_230 :
    ∃ modBatches, (checkAllUpdates (List.range 230) : ServerRequest Nat Nat Nat)
        = ServerRequest.runWithCallback modBatches ∧
      modBatches.map List.length = [116, 114] :=
  ⟨_, checkAllUpdates_of_gt (List.range 230) (by rw [List.length_range]; decide),
    batchLoop_230 (List.range 230) (List.length_range 230)⟩

/-- C16 (partition round trip): for more than 200 IDs the batches built by
`checkAllUpdates` are non-empty slices `[j, e)` of the ID list, and concatenated
in creation order they give back the ID list. -/
theorem partition_round_trip (modIDs : List I) (hn : 200 < modIDs.length) :
    ∃ modBatches, (checkAllUpdates modIDs : ServerRequest I U E)
        = ServerRequest.runWithCallback modBatches ∧
      modBatches.flatten = modIDs ∧
      ∀ b ∈ modBatches, b ≠ [] ∧
        ∃ j e, j < e ∧ e ≤ modIDs.length ∧ b = (modIDs.take e).drop j := by
  refine ⟨_, checkAllUpdates_of_gt modIDs hn, ?_, ?_⟩
  · rw [batchLoop_join modIDs _ _ _ 0 [] rfl]
    rfl
  · intro b hb
    rcases batchLoop_mem modIDs _ _ _ 0 [] rfl b hb with h | ⟨j, e, hje, he, _, hbe⟩
    · simp at h
    · refine ⟨?_, j, e, hje, he, hbe⟩
      intro hnil
      have hl := slice_length modIDs j e he
      rw [← hbe, hnil] at hl
      simp only [List.length_nil] at hl
      omega

/-- Instance of C16 with the 201 IDs `0, ..., 200`. -/
theorem partition_round_trip_witness :
    200 < (List.range 201).length ∧
    ∃ modBatches, (checkAllUpdates (List.range 201) : ServerRequest Nat Nat Nat)
        = ServerRequest.runWithCallback modBatches ∧
      modBatches.flatten = List.range 201 ∧
      ∀ b ∈ modBatches, b ≠ [] ∧
        ∃ j e, j < e ∧ e ≤ (List.range 201).length ∧ b = ((List.range 201).take e).drop j :=
  ⟨by simp, partition_round_trip (List.range 201) (by simp)⟩

/-- C17 (batch size limit): for more than 200 IDs, with
`maxBatchSize = n / (n / 200 + 1) + 1`, every batch built by `checkAllUpdates` has
between 1 and `maxBatchSize` IDs, `maxBatchSize ≤ 200`, and every request sent
when the handle is run carries at most 200 IDs. -/
theorem batch_size_limit (transport : Nat → List I → Except E (List U))
    (modIDs : List I) (hn : 200 < modIDs.length) :
    ∃ modBatches, (checkAllUpdates modIDs : ServerRequest I U E)
        = ServerRequest.runWithCallback modBatches ∧
      (∀ b ∈ modBatches, 1 ≤ b.length ∧
        b.length ≤ modIDs.length / (modIDs.length / 200 + 1) + 1) ∧
      modIDs.length / (modIDs.length / 200 + 1) + 1 ≤ 200 ∧
      ∃ trace, (checkAllUpdates modIDs).run transport = some trace ∧
        ∀ b ∈ Event.requests trace, b.length ≤ 200 := by
  have hsize : ∀ b ∈ batchLoop modIDs (modIDs.length / (modIDs.length / 200 + 1) + 1)
      (Nat.succ_pos _) 0 [], 1 ≤ b.length ∧
        b.length ≤ modIDs.length / (modIDs.length / 200 + 1) + 1 := by
    intro b hb
    rcases batchLoop_mem modIDs _ _ _ 0 [] rfl b hb with h | ⟨j, e, hje, he, hem, hbe⟩
    · simp at h
    · rw [hbe, slice_length modIDs j e he]
      omega
  have hmax := maxBatchSize_le modIDs.length
  refine ⟨_, checkAllUpdates_of_gt modIDs hn, hsize, hmax, ?_⟩
  have hne : batchLoop modIDs (modIDs.length / (modIDs.length / 200 + 1) + 1)
      (Nat.succ_pos _) 0 [] ≠ [] := by
    intro hnil
    have hj := batchLoop_join modIDs _ (Nat.succ_pos (modIDs.length / (modIDs.length / 200 + 1)))
      _ 0 [] rfl
    rw [hnil] at hj
    simp only [List.flatten_nil, List.nil_append, List.drop_zero] at hj
    rw [← hj] at hn
    simp at hn
  obtain ⟨s, hs, ⟨j, _, _, hreq⟩, _⟩ := queueBatches_total transport _ [] 0 [] hne
  refine ⟨s.trace, ?_, ?_⟩
  · rw [checkAllUpdates_of_gt modIDs hn]
    simp only [ServerRequest.run, hs, Option.map_some']
  · intro b hb
    rw [hreq] at hb
    simp only [Event.requests, List.nil_append] at hb
    have hmem : b ∈ batchLoop modIDs (modIDs.length / (modIDs.length / 200 + 1) + 1)
        (Nat.succ_pos _) 0 [] := by
      have := List.mem_of_mem_take hb
      simpa using this
    have := (hsize b hmem).2
    omega

/-- Instance of C17 with the 201 IDs `0, ..., 200`. -/
theorem batch_size_limit_witness :
    200 < (List.range 201).length ∧
    ∃ modBatches, (checkAllUpdates (List.range 201) : ServerRequest Nat Nat Nat)
        = ServerRequest.runWithCallback modBatches ∧
      (∀ b ∈ modBatches, 1 ≤ b.length ∧
        b.length ≤ (List.range 201).length / ((List.range 201).length / 200 + 1) + 1) ∧
      (List.range 201).length / ((List.range 201).length / 200 + 1) + 1 ≤ 200 ∧
      ∃ trace, (checkAllUpdates (List.range 201) : ServerRequest Nat Nat Nat).run
          (fun _ batch => Except.ok batch) = some trace ∧
        ∀ b ∈ Event.requests trace, b.length ≤ 200 :=
  ⟨by simp, batch_size_limit (fun _ batch => Except.ok batch) (List.range 201) (by simp)⟩

/-- C20 (empty-batch short circuit): on the empty ID list `checkAllUpdates` returns
the immediately resolved handle with result `Ok` of the empty list; running it
gives that result and sends no request. -/
theorem empty_short_circuit (transport : Nat → List I → Except E (List U)) :
    (checkAllUpdates ([] : List I) : ServerRequest I U E)
      = ServerRequest.immediate (Except.ok []) ∧
    (checkAllUpdates ([] : List I)).run transport = some [Event.resolve (Except.ok [])] ∧
    Event.requests ([Event.resolve (Except.ok [])] : List (Event I U E)) = [] :=
  ⟨rfl, rfl, rfl⟩

/-- C18 (sequential accumulation): for a non-empty batch stack and an empty
accumulator, if every fetch succeeds, with `rs` the results in processing order
(that of the last batch first), `queueBatches` requests each batch once, from
the last to the first, each request after the result of the one before, and then
calls `resolve` once, with `Ok` of the results concatenated in that order. -/
theorem sequential_accumulation (transport : Nat → List I → Except E (List U))
    (batches : List (List I)) (rs : List (List U)) (hne : batches ≠ [])
    (hok : answers transport 0 batches.reverse = rs.map Except.ok) :
    ∃ s, queueBatches transport ⟨batches, [], 0, []⟩ = some s ∧
      s.trace = exchanges batches.reverse (rs.map Except.ok)
        ++ [Event.resolve (Except.ok rs.flatten)] ∧
      Event.requests s.trace = batches.reverse ∧
      (Event.requests s.trace).length = batches.length ∧
      Event.resolves s.trace = [Except.ok rs.flatten] := by
  have horder : batches.reverse ≠ [] := by simpa using hne
  have hrun := queueBatches_run_ok transport batches.reverse rs [] 0 [] horder hok
  rw [List.reverse_reverse] at hrun
  have hl : (rs.map (Except.ok : List U → Except E (List U))).length
      = batches.reverse.length := by
    rw [← hok, answers_length]
  have hreq : Event.requests (exchanges batches.reverse (rs.map Except.ok)
      ++ [Event.resolve (Except.ok rs.flatten)] : List (Event I U E)) = batches.reverse := by
    simp only [requests_append, requests_exchanges _ _ hl, Event.requests, List.append_nil]
  refine ⟨_, hrun, by simp, ?_, ?_, ?_⟩
  · simpa using hreq
  · have := congrArg List.length hreq
    simpa using this
  · simp only [List.nil_append, resolves_append, resolves_exchanges, Event.resolves]

/-- Instance of C18: two batches, the fetch of a batch returning its IDs times 10. -/
theorem sequential_accumulation_witness :
    (([[1], [2, 3]] : List (List Nat)) ≠ [] ∧
      answers (fun _ batch => (Except.ok (batch.map (· * 10)) : Except Nat (List Nat))) 0
        ([[1], [2, 3]] : List (List Nat)).reverse = [[20, 30], [10]].map Except.ok) ∧
    ∃ s, queueBatches (fun _ batch => (Except.ok (batch.map (· * 10)) : Except Nat (List Nat)))
        ⟨[[1], [2, 3]], [], 0, []⟩ = some s ∧
      s.trace = exchanges ([[1], [2, 3]] : List (List Nat)).reverse
          ([[20, 30], [10]].map Except.ok)
        ++ [Event.resolve (Except.ok ([[20, 30], [10]] : List (List Nat)).flatten)] ∧
      Event.requests s.trace = ([[1], [2, 3]] : List (List Nat)).reverse ∧
      (Event.requests s.trace).length = ([[1], [2, 3]] : List (List Nat)).length ∧
      Event.resolves s.trace = [Except.ok ([[20, 30], [10]] : List (List Nat)).flatten] :=
  ⟨⟨by decide, rfl⟩,
    sequential_accumulation (fun _ batch => Except.ok (batch.map (· * 10)))
      [[1], [2, 3]] [[20, 30], [10]] (by decide) rfl⟩

/-- C19 (fail-fast batch chain): if the `j`-th fetch in processing order is the
first to fail, with error `e` (the `j - 1` fetches before it succeeding with
`rs`), then `queueBatches` calls `resolve` exactly once, with `Err(e)` and never
with an `Ok` value, and sends exactly `j` requests, those for the top `j`
batches. -/
theorem fail_fast (transport : Nat → List I → Except E (List U))
    (batches : List (List I)) (j : Nat) (rs : List (List U)) (e : E)
    (hj : j ≤ batches.length)
    (hfail : answers transport 0 (batches.reverse.take j)
      = rs.map Except.ok ++ [Except.error e]) :
    ∃ s, queueBatches transport ⟨batches, [], 0, []⟩ = some s ∧
      Event.resolves s.trace = [Except.error e] ∧
      Event.requests s.trace = batches.reverse.take j ∧
      (Event.requests s.trace).length = j := by
  have hl := congrArg List.length hfail
  simp only [answers_length, List.length_take, List.length_reverse, List.length_append,
    List.length_map, List.length_singleton] at hl
  have hjeq : j = rs.length + 1 := by omega
  subst hjeq
  obtain ⟨s, hs, hreq, hres⟩ := queueBatches_first_error transport batches rs e [] 0 []
    (by omega) hfail
  refine ⟨s, hs, by simpa [Event.resolves] using hres, by simpa [Event.requests] using hreq, ?_⟩
  rw [hreq]
  simp only [Event.requests, List.nil_append, List.length_take, List.length_reverse]
  omega

/-- Instance of C19: three batches, the second fetch failing with error 7. -/
theorem fail_fast_witness :
    (2 ≤ ([[1], [2], [3]] : List (List Nat)).length ∧
      answers (fun k batch => if k = 1 then (Except.error 7 : Except Nat (List Nat))
          else Except.ok batch) 0 (([[1], [2], [3]] : List (List Nat)).reverse.take 2)
        = [[3]].map Except.ok ++ [Except.error 7]) ∧
    ∃ s, queueBatches (fun k batch => if k = 1 then (Except.error 7 : Except Nat (List Nat))
          else Except.ok batch) ⟨[[1], [2], [3]], [], 0, []⟩ = some s ∧
      Event.resolves s.trace = [Except.error 7] ∧
      Event.requests s.trace = ([[1], [2], [3]] : List (List Nat)).reverse.take 2 ∧
      (Event.requests s.trace).length = 2 :=
  ⟨⟨by decide, rfl⟩,
    fail_fast (fun k batch => if k = 1 then Except.error 7 else Except.ok batch)
      [[1], [2], [3]] 2 [[3]] 7 (by decide) rfl⟩

end UpdateCheck

/-! ## Repeated `FunCache::get` -/

section Dedup

variable {A W H : Type} [DecidableEq A]

theorem FunCache.get_of_hit (F : A → Bool → W → H × W) (self : FunCache A H) (args : A)
    (w : W) (v : H) (h : (self.m_cache.get (ExtractFun.key args)).1 = some v) :
    FunCache.get F self args w = some (v, self, w) := by
  have hsnd := CacheMap.get_snd self.m_cache (ExtractFun.key args)
  unfold FunCache.get
  split
  · rename_i v' cache heq
    rw [heq] at h hsnd
    simp only [Option.some.injEq] at h hsnd
    subst h
    subst hsnd
    rfl
  · rename_i cache heq
    rw [heq] at h
    simp at h

theorem FunCache.get_of_miss (F : A → Bool → W → H × W) (self : FunCache A H) (args : A)
    (w : W) (h : (self.m_cache.get (ExtractFun.key args)).1 = none) :
    FunCache.get F self args w
      = (self.m_cache.add (ExtractFun.key args) (F args false w).1).map
          (fun cache => ((F args false w).1, FunCache.mk cache, (F args false w).2)) := by
  have hsnd := CacheMap.get_snd self.m_cache (ExtractFun.key args)
  unfold FunCache.get
  split
  · rename_i v' cache heq
    rw [heq] at h
    simp at h
  · rename_i cache heq
    rw [heq] at hsnd
    simp only at hsnd
    subst hsnd
    simp only [ExtractFun.invoke]
    cases self.m_cache.add (ExtractFun.key args) (F args false w).1 <;> rfl

/-- After a defined `add(key, value)` of a key held by no entry, `get(key)` returns
`value`. -/
theorem CacheMap.get_after_add {K V : Type} [DecidableEq K] (c c' : CacheMap K V) (key : K)
    (value : V) (hmiss : key ∉ c.m_values.map Prod.fst) (hadd : c.add key value = some c') :
    (c'.get key).1 = some value := by
  have hfind : ∀ l : List (K × V), key ∉ l.map Prod.fst →
      (l ++ [(key, value)]).find? (fun q => q.1 == key) = some (key, value) := by
    intro l hl
    induction l with
    | nil => simp
    | cons q qs ih =>
      simp only [List.map_cons, List.mem_cons, not_or] at hl
      rw [List.cons_append, List.find?_cons_of_neg _ (by simpa using fun h => hl.1 h.symm)]
      exact ih hl.2
  by_cases hlt : c.m_values.length < c.m_sizeLimit
  · rw [CacheMap.add_of_lt c key value hlt, Option.some.injEq] at hadd
    subst hadd
    rw [CacheMap.get_fst, hfind _ hmiss]
    rfl
  · have hne : c.m_values ≠ [] := by
      intro hnil
      have h0 : c.m_sizeLimit = 0 := by
        rw [hnil] at hlt
        simpa using hlt
      have hc : c = ⟨[], 0⟩ := by
        cases c with
        | mk vs lim =>
          simp only at hnil h0
          subst hnil
          subst h0
          rfl
      rw [hc, CacheMap.add_empty_zero] at hadd
      cases hadd
    rw [CacheMap.add_of_ge c key value (Nat.not_lt.mp hlt) hne, Option.some.injEq] at hadd
    subst hadd
    rw [CacheMap.get_fst, hfind _ (fun h => hmiss
      (((List.tail_sublist c.m_values).map Prod.fst).subset h))]
    rfl

/-- C11 as stated fails on the empty cache with limit 0: the first `get` misses,
fetches, and its `add` is undefined, so no handle is returned to compare. -/
theorem sequential_dedup_limit_zero_counterexample :
    ¬ ∃ r1 r2,
      FunCache.get (logged (fun (a : Nat) (_ : Bool) (n : Nat) => (100 * a + n, n + 1)))
        (FunCache.mk (CacheMap.mk [] 0)) 1 (0, []) = some r1 ∧
      FunCache.get (logged (fun (a : Nat) (_ : Bool) (n : Nat) => (100 * a + n, n + 1)))
        r1.2.1 1 r1.2.2 = some r2 ∧ r2.1 = r1.1 := by
  rintro ⟨r1, r2, h1, _⟩
  have hnone : FunCache.get
      (logged (fun (a : Nat) (_ : Bool) (n : Nat) => (100 * a + n, n + 1)))
      (FunCache.mk (CacheMap.mk [] 0)) 1 (0, []) = none := rfl
  rw [hnone] at h1
  cases h1

/-- C11, amended (sequential deduplication): in every state whose cache is
non-empty or below its limit, two consecutive calls `get(a); get(a)` are defined
and return the same handle; the second call leaves cache, world and the log of
fetch invocations as the first left them, so it fetches nothing, and the pair
adds at most the one invocation `F(a..., false)` to the log. -/
theorem sequential_dedup (F : A → Bool → W → H × W) (self : FunCache A H) (a : A) (w : W)
    (log : List (A × Bool))
    (hdef : self.m_cache.m_values ≠ [] ∨
      self.m_cache.m_values.length < self.m_cache.m_sizeLimit) :
    ∃ h self1 st1, FunCache.get (logged F) self a (w, log) = some (h, self1, st1) ∧
      FunCache.get (logged F) self1 a st1 = some (h, self1, st1) ∧
      (st1.2 = log ∨ st1.2 = log ++ [(a, false)]) := by
  cases hget : (self.m_cache.get (ExtractFun.key a)).1 with
  | some v =>
    exact ⟨v, self, (w, log), FunCache.get_of_hit (logged F) self a (w, log) v hget,
      FunCache.get_of_hit (logged F) self a (w, log) v hget, Or.inl rfl⟩
  | none =>
    have hmiss := (CacheMap.get_eq_none_iff self.m_cache (ExtractFun.key a)).mp hget
    have hsome := (add_isSome_iff self.m_cache (ExtractFun.key a)
      (logged F a false (w, log)).1).mpr hdef
    obtain ⟨c', hc'⟩ := Option.isSome_iff_exists.mp hsome
    have h1 := FunCache.get_of_miss (logged F) self a (w, log) hget
    rw [hc'] at h1
    refine ⟨_, _, _, h1, ?_, Or.inr rfl⟩
    exact FunCache.get_of_hit (logged F) (FunCache.mk c') a _ _
      (CacheMap.get_after_add self.m_cache c' (ExtractFun.key a) _ hmiss hc')

/-- Instance of the amended C11: a miss on the default-constructed cache. -/
theorem sequential_dedup_witness :
    ((CacheMap.mk ([] : List ((Nat × Bool) × Nat)) 20).m_values ≠ [] ∨
      (CacheMap.mk ([] : List ((Nat × Bool) × Nat)) 20).m_values.length
        < (CacheMap.mk ([] : List ((Nat × Bool) × Nat)) 20).m_sizeLimit) ∧
    ∃ h self1 st1,
      FunCache.get (logged (fun (a : Nat) (_ : Bool) (n : Nat) => (100 * a + n, n + 1)))
        (FunCache.mk (CacheMap.mk [] 20)) 1 (0, []) = some (h, self1, st1) ∧
      FunCache.get (logged (fun (a : Nat) (_ : Bool) (n : Nat) => (100 * a + n, n + 1)))
        self1 1 st1 = some (h, self1, st1) ∧
      (st1.2 = [] ∨ st1.2 = [] ++ [(1, false)]) :=
  ⟨Or.inr (by decide),
    sequential_dedup (fun (a : Nat) (_ : Bool) (n : Nat) => (100 * a + n, n + 1))
      (FunCache.mk (CacheMap.mk [] 20)) 1 0 [] (Or.inr (by decide))⟩

end Dedup

/-! ## Concurrent callers -/

section Concurrent

variable {A W H : Type} [DecidableEq A]

theorem CacheMap.get_eq_of_miss {K V : Type} [DecidableEq K] (c : CacheMap K V) (key : K)
    (h : key ∉ c.m_values.map Prod.fst) : c.get key = (none, c) :=
  Prod.ext ((CacheMap.get_eq_none_iff c key).mpr h) (CacheMap.get_snd c key)

theorem CacheMap.get_eq_of_hit {K V : Type} [DecidableEq K] (c : CacheMap K V) (key : K)
    (v : V) (h : (c.get key).1 = some v) : c.get key = (some v, c) :=
  Prod.ext h (CacheMap.get_snd c key)

theorem getElem?_lt {α : Type} (l : List α) (i : Nat) (x : α) (h : l[i]? = some x) :
    i < l.length := by
  by_contra hn
  rw [List.getElem?_eq_none (Nat.not_lt.mp hn)] at h
  cases h

/-- Every step of every caller keeps the state among those of `DedupInv`, and is
defined when `add` on the initial cache is. -/
theorem getStep_inv (F : A → Bool → W → H × W) (args : A)
    (cache0 : CacheMap (ExtractFun.CacheKey A) H) (w0 : W)
    (hmiss : ExtractFun.key args ∉ cache0.m_values.map Prod.fst)
    (hdef : cache0.m_values ≠ [] ∨ cache0.m_values.length < cache0.m_sizeLimit)
    (s : Shared A W H) (hinv : DedupInv F args cache0 w0 s) (u : Nat) :
    ∃ s', getStep F args u s = some s' ∧ DedupInv F args cache0 w0 s' ∧
      s'.callers.length = s.callers.length := by
  cases hu : s.callers[u]? with
  | none => exact ⟨s, by simp [getStep, hu], hinv, rfl⟩
  | some c =>
    have hlt : u < s.callers.length := getElem?_lt _ _ _ hu
    rcases hinv with ⟨hc, hw, hall⟩ | ⟨t, hm, hc, hw, ht, hoth⟩ | ⟨hc, hw, hall⟩
    · -- nothing fetched yet
      rcases hall u c hu with rfl | ⟨hmu, rfl | rfl⟩
      · cases hmx : s.m_mutex with
        | none =>
          refine ⟨{ s with m_mutex := some u, callers := s.callers.set u Caller.locked },
            by simp [getStep, hu, hmx], Or.inl ⟨hc, hw, ?_⟩, by simp⟩
          intro i c hi
          by_cases hiu : i = u
          · subst hiu
            simp only [List.getElem?_set_self hlt, Option.some.injEq] at hi
            subst hi
            exact Or.inr ⟨rfl, Or.inl rfl⟩
          · simp only [List.getElem?_set_ne (Ne.symm hiu)] at hi
            rcases hall i c hi with h | ⟨h, _⟩
            · exact Or.inl h
            · rw [hmx] at h
              cases h
        | some t => exact ⟨s, by simp [getStep, hu, hmx], Or.inl ⟨hc, hw, hall⟩, rfl⟩
      · have hget : s.m_cache.get (ExtractFun.key args) = (none, s.m_cache) := by
          rw [hc]
          exact CacheMap.get_eq_of_miss cache0 _ hmiss
        refine ⟨{ s with callers := s.callers.set u Caller.missed },
          by simp [getStep, hu, hget], Or.inl ⟨hc, hw, ?_⟩, by simp⟩
        intro i c hi
        by_cases hiu : i = u
        · subst hiu
          simp only [List.getElem?_set_self hlt, Option.some.injEq] at hi
          subst hi
          exact Or.inr ⟨hmu, Or.inr rfl⟩
        · simp only [List.getElem?_set_ne (Ne.symm hiu)] at hi
          exact hall i c hi
      · refine ⟨{ s with world := (F args false s.world).2,
                         callers := s.callers.set u (Caller.fetched (F args false s.world).1) },
          by simp [getStep, hu, ExtractFun.invoke], Or.inr (Or.inl ⟨u, hmu, hc, ?_, ?_, ?_⟩),
          by simp⟩
        · simp only [hw]
        · simp only [List.getElem?_set_self hlt, hw]
        · intro i c hiu hi
          simp only [List.getElem?_set_ne (Ne.symm hiu)] at hi
          rcases hall i c hi with h | ⟨h, _⟩
          · exact h
          · rw [hmu, Option.some.injEq] at h
            exact absurd h.symm hiu
    · -- the fetch is made and about to be stored
      by_cases hut : u = t
      · subst hut
        rw [hu, Option.some.injEq] at ht
        subst ht
        have hsome := (add_isSome_iff cache0 (ExtractFun.key args) (F args false w0).1).mpr hdef
        obtain ⟨c', hc'⟩ := Option.isSome_iff_exists.mp hsome
        refine ⟨{ s with m_mutex := none, m_cache := c',
                         callers := s.callers.set u (Caller.returned (F args false w0).1) },
          by simp [getStep, hu, hc, hc'], Or.inr (Or.inr ⟨?_, hw, ?_⟩), by simp⟩
        · exact CacheMap.get_after_add cache0 c' _ _ hmiss hc'
        · intro i c hi
          by_cases hiu : i = u
          · subst hiu
            simp only [List.getElem?_set_self hlt, Option.some.injEq] at hi
            subst hi
            exact Or.inr (Or.inl rfl)
          · simp only [List.getElem?_set_ne (Ne.symm hiu)] at hi
            exact Or.inl (hoth i c hiu hi)
      · have hcw := hoth u c hut hu
        subst hcw
        exact ⟨s, by simp [getStep, hu, hm], Or.inr (Or.inl ⟨t, hm, hc, hw, ht, hoth⟩), rfl⟩
    · -- the handle is stored
      rcases hall u c hu with rfl | rfl | ⟨hmu, rfl⟩
      · cases hmx : s.m_mutex with
        | none =>
          refine ⟨{ s with m_mutex := some u, callers := s.callers.set u Caller.locked },
            by simp [getStep, hu, hmx], Or.inr (Or.inr ⟨hc, hw, ?_⟩), by simp⟩
          intro i c hi
          by_cases hiu : i = u
          · subst hiu
            simp only [List.getElem?_set_self hlt, Option.some.injEq] at hi
            subst hi
            exact Or.inr (Or.inr ⟨rfl, rfl⟩)
          · simp only [List.getElem?_set_ne (Ne.symm hiu)] at hi
            rcases hall i c hi with h | h | ⟨h, _⟩
            · exact Or.inl h
            · exact Or.inr (Or.inl h)
            · rw [hmx] at h
              cases h
        | some t =>
          exact ⟨s, by simp [getStep, hu, hmx], Or.inr (Or.inr ⟨hc, hw, hall⟩), rfl⟩
      · exact ⟨s, by simp [getStep, hu], Or.inr (Or.inr ⟨hc, hw, hall⟩), rfl⟩
      · have hget := CacheMap.get_eq_of_hit s.m_cache (ExtractFun.key args) _ hc
        refine ⟨{ s with m_mutex := none,
                         callers := s.callers.set u (Caller.returned (F args false w0).1) },
          by simp [getStep, hu, hget], Or.inr (Or.inr ⟨hc, hw, ?_⟩), by simp⟩
        intro i c hi
        by_cases hiu : i = u
        · subst hiu
          simp only [List.getElem?_set_self hlt, Option.some.injEq] at hi
          subst hi
          exact Or.inr (Or.inl rfl)
        · simp only [List.getElem?_set_ne (Ne.symm hiu)] at hi
          rcases hall i c hi with h | h | ⟨h, _⟩
          · exact Or.inl h
          · exact Or.inr (Or.inl h)
          · rw [hmu, Option.some.injEq] at h
            exact absurd h.symm hiu

/-- Every schedule is defined and keeps the state among those of `DedupInv`. -/
theorem getRun_inv (F : A → Bool → W → H × W) (args : A)
    (cache0 : CacheMap (ExtractFun.CacheKey A) H) (w0 : W)
    (hmiss : ExtractFun.key args ∉ cache0.m_values.map Prod.fst)
    (hdef : cache0.m_values ≠ [] ∨ cache0.m_values.length < cache0.m_sizeLimit)
    (schedule : List Nat) :
    ∀ s : Shared A W H, DedupInv F args cache0 w0 s →
      ∃ s', getRun F args schedule s = some s' ∧ DedupInv F args cache0 w0 s' ∧
        s'.callers.length = s.callers.length := by
  induction schedule with
  | nil => intro s hinv; exact ⟨s, rfl, hinv, rfl⟩
  | cons u schedule ih =>
    intro s hinv
    obtain ⟨s1, h1, hinv1, hl1⟩ := getStep_inv F args cache0 w0 hmiss hdef s hinv u
    obtain ⟨s2, h2, hinv2, hl2⟩ := ih s1 hinv1
    exact ⟨s2, by simp [getRun, h1, h2], hinv2, hl2.trans hl1⟩

theorem getRun_append (F : A → Bool → W → H × W) (args : A) (xs ys : List Nat) :
    ∀ s s' : Shared A W H, getRun F args xs s = some s' →
      getRun F args (xs ++ ys) s = getRun F args ys s' := by
  induction xs with
  | nil =>
    intro s s' h
    simp only [getRun, Option.some.injEq] at h
    subst h
    rfl
  | cons u xs ih =>
    intro s s' h
    cases hstep : getStep F args u s with
    | none => simp [getRun, hstep] at h
    | some s1 =>
      simp only [getRun, hstep] at h
      simp only [List.cons_append, getRun, hstep]
      exact ih s1 s' h

/-- Once the handle `h` is stored, callers still waiting can be scheduled one
after the other, and each returns `h`. -/
theorem getRun_rest (F : A → Bool → W → H × W) (args : A)
    (cache : CacheMap (ExtractFun.CacheKey A) H) (w1 : W) (h : H)
    (hhit : (cache.get (ExtractFun.key args)).1 = some h) :
    ∀ (m k : Nat), ∃ schedule,
      getRun F args schedule
        ⟨none, cache, w1, List.replicate k (Caller.returned h)
          ++ List.replicate m Caller.waiting⟩
      = some ⟨none, cache, w1, List.replicate (k + m) (Caller.returned h)⟩ := by
  have hget := CacheMap.get_eq_of_hit cache (ExtractFun.key args) h hhit
  intro m
  induction m with
  | zero => intro k; exact ⟨[], by simp [getRun]⟩
  | succ m ih =>
    intro k
    obtain ⟨schedule, hs⟩ := ih (k + 1)
    refine ⟨[k, k] ++ schedule, ?_⟩
    have h2 : getRun F args [k, k]
        ⟨none, cache, w1, List.replicate k (Caller.returned h)
          ++ List.replicate (m + 1) Caller.waiting⟩
        = some ⟨none, cache, w1, List.replicate (k + 1) (Caller.returned h)
          ++ List.replicate m Caller.waiting⟩ := by
      have e1 : (List.replicate k (Caller.returned h)
          ++ List.replicate (m + 1) Caller.waiting)[k]? = some Caller.waiting := by
        rw [List.getElem?_append_right (by simp)]
        simp [List.replicate_succ]
      have e2 : (List.replicate k (Caller.returned h)
          ++ List.replicate (m + 1) Caller.waiting).set k Caller.locked
          = List.replicate k (Caller.returned h)
            ++ Caller.locked :: List.replicate m Caller.waiting := by
        rw [List.set_append_right _ _ (by simp)]
        simp [List.replicate_succ]
      have e3 : (List.replicate k (Caller.returned h)
          ++ Caller.locked :: List.replicate m Caller.waiting)[k]? = some Caller.locked := by
        rw [List.getElem?_append_right (by simp)]
        simp
      have e4 : (List.replicate k (Caller.returned h)
          ++ Caller.locked :: List.replicate m Caller.waiting).set k (Caller.returned h)
          = List.replicate (k + 1) (Caller.returned h) ++ List.replicate m Caller.waiting := by
        rw [List.set_append_right _ _ (by simp)]
        simp [List.replicate_succ']
      simp only [getRun, getStep, e1, Option.isNone_none, if_true, e2, e3, hget, e4]
    rw [getRun_append F args [k, k] schedule _ _ h2, hs]
    congr 3
    omega

/-- From a cache without an entry for the key, on which `add` is defined, some
schedule lets all `N ≥ 1` callers return. -/
theorem getRun_complete (F : A → Bool → W → H × W) (args : A)
    (cache0 : CacheMap (ExtractFun.CacheKey A) H) (w0 : W) (N : Nat) (hN : 1 ≤ N)
    (hmiss : ExtractFun.key args ∉ cache0.m_values.map Prod.fst)
    (hdef : cache0.m_values ≠ [] ∨ cache0.m_values.length < cache0.m_sizeLimit) :
    ∃ schedule s,
      getRun F args schedule ⟨none, cache0, w0, List.replicate N Caller.waiting⟩ = some s ∧
      s.callers = List.replicate N (Caller.returned (F args false w0).1) := by
  obtain ⟨m, rfl⟩ : ∃ m, N = m + 1 := ⟨N - 1, by omega⟩
  have hsome := (add_isSome_iff cache0 (ExtractFun.key args) (F args false w0).1).mpr hdef
  obtain ⟨c', hc'⟩ := Option.isSome_iff_exists.mp hsome
  have hhit := CacheMap.get_after_add cache0 c' _ _ hmiss hc'
  have hget := CacheMap.get_eq_of_miss cache0 _ hmiss
  have h4 : getRun F args [0, 0, 0, 0]
      ⟨none, cache0, w0, List.replicate (m + 1) Caller.waiting⟩
      = some ⟨none, c', (F args false w0).2,
          List.replicate 1 (Caller.returned (F args false w0).1)
            ++ List.replicate m Caller.waiting⟩ := by
    simp [getRun, getStep, List.replicate_succ, hget, ExtractFun.invoke, hc']
  obtain ⟨schedule, hs⟩ := getRun_rest F args c' (F args false w0).2 (F args false w0).1
    hhit m 1
  refine ⟨[0, 0, 0, 0] ++ schedule,
    ⟨none, c', (F args false w0).2,
      List.replicate (1 + m) (Caller.returned (F args false w0).1)⟩, ?_, ?_⟩
  · rw [getRun_append F args [0, 0, 0, 0] schedule _ _ h4]
    exact hs
  · simp only
    congr 1
    omega

/-- When all callers have returned, exactly the one fetch was made and every
caller holds its handle. -/
theorem DedupInv.all_returned (F : A → Bool → W → H × W) (args : A)
    (cache0 : CacheMap (ExtractFun.CacheKey A) H) (w0 : W) (s : Shared A W H)
    (hinv : DedupInv F args cache0 w0 s) (hpos : 0 < s.callers.length)
    (hret : ∀ c ∈ s.callers, ∃ v, c = Caller.returned v) :
    s.world = (F args false w0).2 ∧
      s.callers = List.replicate s.callers.length (Caller.returned (F args false w0).1) := by
  rcases hinv with ⟨_, _, hall⟩ | ⟨t, _, _, _, ht, _⟩ | ⟨_, hw, hall⟩
  · exfalso
    have h0 : s.callers[0]? = some s.callers[0] := List.getElem?_eq_getElem hpos
    obtain ⟨v, hv⟩ := hret _ (List.getElem_mem hpos)
    rcases hall 0 _ h0 with h | ⟨_, h | h⟩ <;> rw [hv] at h <;> cases h
  · exfalso
    obtain ⟨v, hv⟩ := hret _ (List.mem_iff_getElem?.mpr ⟨t, ht⟩)
    cases hv
  · refine ⟨hw, List.eq_replicate_iff.mpr ⟨rfl, ?_⟩⟩
    intro c hc
    obtain ⟨i, hi⟩ := List.mem_iff_getElem?.mp hc
    obtain ⟨v, hv⟩ := hret c hc
    rcases hall i c hi with h | h | ⟨_, h⟩
    · rw [hv] at h; cases h
    · exact h
    · rw [hv] at h; cases h

/-- With the empty cache of limit 0 no caller ever returns: the lookup misses and
the `add` after the fetch is undefined. -/
theorem getRun_limit_zero (F : A → Bool → W → H × W) (args : A) (schedule : List Nat) :
    ∀ s s' : Shared A W H, s.m_cache = ⟨[], 0⟩ →
      (∀ c ∈ s.callers, ∀ v, c ≠ Caller.returned v) →
      getRun F args schedule s = some s' →
      s'.callers.length = s.callers.length ∧ ∀ c ∈ s'.callers, ∀ v, c ≠ Caller.returned v := by
  induction schedule with
  | nil =>
    intro s s' _ hno h
    simp only [getRun, Option.some.injEq] at h
    subst h
    exact ⟨rfl, hno⟩
  | cons u schedule ih =>
    intro s s' hc hno h
    have hset : ∀ (x : Caller H), (∀ v, x ≠ Caller.returned v) →
        ∀ c ∈ s.callers.set u x, ∀ v, c ≠ Caller.returned v := by
      intro x hx c hmem
      rcases List.mem_or_eq_of_mem_set hmem with h1 | h1
      · exact hno c h1
      · rw [h1]; exact hx
    cases hu : s.callers[u]? with
    | none =>
      simp only [getRun, getStep, hu] at h
      exact ih s s' hc hno h
    | some c =>
      cases c with
      | waiting =>
        cases hmx : s.m_mutex with
        | none =>
          simp only [getRun, getStep, hu, hmx, Option.isNone_none, if_true] at h
          have := ih { s with m_mutex := some u, callers := s.callers.set u Caller.locked }
            s' hc (hset Caller.locked (fun v hv => by cases hv)) h
          simpa using this
        | some t =>
          simp only [getRun, getStep, hu, hmx, Option.isNone_some, Bool.false_eq_true,
            if_false] at h
          exact ih s s' hc hno h
      | locked =>
        have hget : s.m_cache.get (ExtractFun.key args) = (none, s.m_cache) := by
          rw [hc]; rfl
        simp only [getRun, getStep, hu, hget] at h
        have := ih { s with callers := s.callers.set u Caller.missed } s' hc
          (hset Caller.missed (fun v hv => by cases hv)) h
        simpa using this
      | missed =>
        simp only [getRun, getStep, hu, ExtractFun.invoke] at h
        have := ih { s with world := (F args false s.world).2,
                            callers := s.callers.set u (Caller.fetched (F args false s.world).1) }
          s' hc (hset (Caller.fetched _) (fun v hv => by cases hv)) h
        simpa using this
      | fetched f =>
        have hadd : s.m_cache.add (ExtractFun.key args) f = none := by
          rw [hc]; exact CacheMap.add_empty_zero _ _
        simp [getRun, getStep, hu, hadd] at h
      | returned v =>
        exact absurd rfl (hno _ (List.mem_iff_getElem?.mpr ⟨u, hu⟩) v)

/-- C12 as stated fails on the empty cache with limit 0: under no schedule does
the single caller receive a handle, because the `add` after the fetch is
undefined. -/
theorem concurrent_dedup_limit_zero_counterexample :
    ¬ ∃ schedule s,
      getRun (logged (fun (a : Nat) (_ : Bool) (n : Nat) => (100 * a + n, n + 1))) 1 schedule
        ⟨none, CacheMap.mk [] 0, (0, []), [Caller.waiting]⟩ = some s ∧
      ∀ c ∈ s.callers, ∃ v, c = Caller.returned v := by
  rintro ⟨schedule, s, hrun, hret⟩
  obtain ⟨hlen, hno⟩ := getRun_limit_zero _ 1 schedule _ s rfl
    (by intro c hc v; simp only [List.mem_singleton] at hc; rw [hc]; intro h; cases h) hrun
  have hpos : 0 < s.callers.length := by rw [hlen]; simp
  obtain ⟨v, hv⟩ := hret _ (List.getElem_mem hpos)
  exact hno _ (List.getElem_mem hpos) v hv

/-- C12, amended (deduplication under concurrency): let `N ≥ 1` callers run
`FunCache::get` with the same arguments on a cache that holds no entry for their
key and is non-empty or below its limit. Then every interleaving of their
statements is defined; in every state in which all callers have returned, the
fetch function has been invoked exactly once, as `F(args..., false)`, and every
caller has received the handle of that invocation; and some interleaving lets
all callers return. -/
theorem concurrent_dedup (F : A → Bool → W → H × W) (args : A)
    (cache0 : CacheMap (ExtractFun.CacheKey A) H) (w : W) (log : List (A × Bool)) (N : Nat)
    (hN : 1 ≤ N) (hmiss : ExtractFun.key args ∉ cache0.m_values.map Prod.fst)
    (hdef : cache0.m_values ≠ [] ∨ cache0.m_values.length < cache0.m_sizeLimit) :
    (∀ schedule, ∃ s, getRun (logged F) args schedule
      ⟨none, cache0, (w, log), List.replicate N Caller.waiting⟩ = some s) ∧
    (∀ schedule s,
      getRun (logged F) args schedule
        ⟨none, cache0, (w, log), List.replicate N Caller.waiting⟩ = some s →
      (∀ c ∈ s.callers, ∃ v, c = Caller.returned v) →
      s.world.2 = log ++ [(args, false)] ∧
        s.callers = List.replicate N (Caller.returned (F args false w).1)) ∧
    ∃ schedule s,
      getRun (logged F) args schedule
        ⟨none, cache0, (w, log), List.replicate N Caller.waiting⟩ = some s ∧
      s.callers = List.replicate N (Caller.returned (F args false w).1) := by
  have hinit : DedupInv (logged F) args cache0 (w, log)
      ⟨none, cache0, (w, log), List.replicate N Caller.waiting⟩ := by
    refine Or.inl ⟨rfl, rfl, ?_⟩
    intro i c hi
    left
    have hmem : c ∈ List.replicate N (Caller.waiting : Caller H) :=
      List.mem_iff_getElem?.mpr ⟨i, hi⟩
    exact (List.mem_replicate.mp hmem).2
  refine ⟨?_, ?_, ?_⟩
  · intro schedule
    obtain ⟨s, hs, _, _⟩ := getRun_inv (logged F) args cache0 (w, log) hmiss hdef schedule _ hinit
    exact ⟨s, hs⟩
  · intro schedule s hrun hret
    obtain ⟨s1, hs1, hinv, hlen⟩ :=
      getRun_inv (logged F) args cache0 (w, log) hmiss hdef schedule _ hinit
    rw [hrun, Option.some.injEq] at hs1
    subst hs1
    simp only [List.length_replicate] at hlen
    obtain ⟨hw, hcallers⟩ := DedupInv.all_returned (logged F) args cache0 (w, log) s hinv
      (by omega) hret
    rw [hlen] at hcallers
    exact ⟨by rw [hw]; rfl, hcallers⟩
  · exact getRun_complete (logged F) args cache0 (w, log) N hN hmiss hdef

/-- Instance of the amended C12: two callers on the default-constructed cache, the
second trying the mutex while the first holds it. -/
theorem concurrent_dedup_witness :
    (1 ≤ 2 ∧
      ExtractFun.key 1 ∉ (CacheMap.mk ([] : List ((Nat × Bool) × Nat)) 20).m_values.map Prod.fst ∧
      ((CacheMap.mk ([] : List ((Nat × Bool) × Nat)) 20).m_values ≠ [] ∨
        (CacheMap.mk ([] : List ((Nat × Bool) × Nat)) 20).m_values.length
          < (CacheMap.mk ([] : List ((Nat × Bool) × Nat)) 20).m_sizeLimit) ∧
      getRun (logged (fun (a : Nat) (_ : Bool) (n : Nat) => (100 * a + n, n + 1))) 1
          [0, 1, 0, 0, 1, 0, 1, 1]
          ⟨none, CacheMap.mk [] 20, (0, []), List.replicate 2 Caller.waiting⟩
        = some ⟨none, CacheMap.mk [((1, false), 100)] 20, (1, [(1, false)]),
            [Caller.returned 100, Caller.returned 100]⟩ ∧
      ∀ c ∈ [Caller.returned 100, Caller.returned 100], ∃ v, c = Caller.returned (v : Nat)) ∧
    ((1, [(1, false)]) : Nat × List (Nat × Bool)).2 = [] ++ [(1, false)] ∧
    [Caller.returned 100, Caller.returned 100]
      = List.replicate 2 (Caller.returned (100 * 1 + 0, 0 + 1).1) :=
  ⟨⟨by decide, by decide, Or.inr (by decide), rfl, by simp⟩,
    (concurrent_dedup (fun (a : Nat) (_ : Bool) (n : Nat) => (100 * a + n, n + 1)) 1
      (CacheMap.mk [] 20) 0 [] 2 (by decide) (by decide) (Or.inr (by decide))).2.1
      [0, 1, 0, 0, 1, 0, 1, 1]
      ⟨none, CacheMap.mk [((1, false), 100)] 20, (1, [(1, false)]),
        [Caller.returned 100, Caller.returned 100]⟩ rfl (by simp)⟩

end Concurrent

/-! ## Clearing and re-limiting the caches -/

section CacheRegistry

variable {Q MV HMods HMod HVersion HLogo HTags HUpdates : Type}

/-- C21 (global caches are cleared only on request): `clearServerCaches(false)`
leaves the tags cache and the all-updates cache as they were;
`clearServerCaches(true)` leaves both with size 0; neither call changes the limit
of any of the six caches. -/
theorem clearServerCaches_global
    (c : Caches Q MV HMods HMod HVersion HLogo HTags HUpdates) :
    ((clearServerCaches false c).getTags = c.getTags ∧
      (clearServerCaches false c).checkAllUpdates = c.checkAllUpdates) ∧
    ((clearServerCaches true c).getTags.size = 0 ∧
      (clearServerCaches true c).checkAllUpdates.size = 0) ∧
    ∀ b : Bool,
      (clearServerCaches b c).getMods.m_cache.limit_get = c.getMods.m_cache.limit_get ∧
      (clearServerCaches b c).getMod.m_cache.limit_get = c.getMod.m_cache.limit_get ∧
      (clearServerCaches b c).getModVersion.m_cache.limit_get
        = c.getModVersion.m_cache.limit_get ∧
      (clearServerCaches b c).getModLogo.m_cache.limit_get
        = c.getModLogo.m_cache.limit_get ∧
      (clearServerCaches b c).getTags.m_cache.limit_get = c.getTags.m_cache.limit_get ∧
      (clearServerCaches b c).checkAllUpdates.m_cache.limit_get
        = c.checkAllUpdates.m_cache.limit_get := by
  refine ⟨⟨rfl, rfl⟩, ⟨rfl, rfl⟩, ?_⟩
  intro b
  cases b <;> exact ⟨rfl, rfl, rfl, rfl, rfl, rfl⟩

/-- C22 (per-query caches are always cleared), where the code departs from it:
`clearServerCaches(b)` empties the caches of `getMods`, `getMod` and `getModLogo`
and never touches the cache of `getModVersion`, which keeps all its entries. -/
theorem clearServerCaches_keeps_getModVersion
    (c : Caches Q MV HMods HMod HVersion HLogo HTags HUpdates) (b : Bool) :
    (clearServerCaches b c).getModVersion = c.getModVersion ∧
    (clearServerCaches b c).getMods.size = 0 ∧ (clearServerCaches b c).getMod.size = 0 ∧
    (clearServerCaches b c).getModLogo.size = 0 := by
  cases b <;> exact ⟨rfl, rfl, rfl, rfl⟩

/-- C23 (live re-limiting reaches every cache), where the code departs from it:
the listener calls `limit(size)` on five caches and never on the cache of
`getModVersion`, which keeps its limit and all its entries. -/
theorem serverCacheSizeLimitChanged_keeps_getModVersion
    (c : Caches Q MV HMods HMod HVersion HLogo HTags HUpdates) (size : Int) :
    (serverCacheSizeLimitChanged size c).getModVersion = c.getModVersion :=
  rfl

/-- For a setting value `0 ≤ s < 2 ^ 63` the five caches the listener names have
limit `s` and size 0 afterwards. -/
theorem serverCacheSizeLimitChanged_five
    (c : Caches Q MV HMods HMod HVersion HLogo HTags HUpdates) (s : Nat)
    (hs : s < 2 ^ 63) :
    ((serverCacheSizeLimitChanged (s : Int) c).getMods.m_cache.limit_get = s ∧
      (serverCacheSizeLimitChanged (s : Int) c).getMods.size = 0) ∧
    ((serverCacheSizeLimitChanged (s : Int) c).getMod.m_cache.limit_get = s ∧
      (serverCacheSizeLimitChanged (s : Int) c).getMod.size = 0) ∧
    ((serverCacheSizeLimitChanged (s : Int) c).getModLogo.m_cache.limit_get = s ∧
      (serverCacheSizeLimitChanged (s : Int) c).getModLogo.size = 0) ∧
    ((serverCacheSizeLimitChanged (s : Int) c).getTags.m_cache.limit_get = s ∧
      (serverCacheSizeLimitChanged (s : Int) c).getTags.size = 0) ∧
    ((serverCacheSizeLimitChanged (s : Int) c).checkAllUpdates.m_cache.limit_get = s ∧
      (serverCacheSizeLimitChanged (s : Int) c).checkAllUpdates.size = 0) := by
  have hn : ((s : Int) % 2 ^ 64).toNat = s := by
    have h1 : ((s : Int) % 2 ^ 64) = (s : Int) := by
      apply Int.emod_eq_of_lt (by omega)
      have : (s : Int) < 2 ^ 63 := by exact_mod_cast hs
      omega
    rw [h1, Int.toNat_ofNat]
  simp only [serverCacheSizeLimitChanged, hn, FunCache.limit, CacheMap.limit,
    CacheMap.limit_get, FunCache.size, CacheMap.size, List.length_nil, and_self]

end CacheRegistry

/-! ## Errors of a response -/

section Responses

variable {T : Type}

theorem parseServerError_code (error : WebResponse) :
    (parseServerError error).code = error.code := by
  unfold parseServerError
  split
  · split <;> rfl
  · rfl

/-- C25 as stated fails for `getMods`: a response with status 404, which is not a
success, is mapped to `Ok` of the empty mods list. -/
theorem getMods_404_counterexample :
    (WebResponse.mk 404 false (.error "") (.error "") []).ok = false ∧
    getModsResult (fun _ => "") (fun _ => (Except.error "" : Except String (List Nat))) []
      (WebResponse.mk 404 false (.error "") (.error "") []) = Except.ok [] := by
  exact ⟨rfl, rfl⟩

/-- C25, amended (transport errors propagate): for a response that is not a
success, the mappers of `getMod`, `getModVersion`, `getModLogo`, `getTags` and
`batchedCheckUpdates` give an error that carries the status code of the response,
and so does the mapper of `getMods` unless the status is 404, which it maps to
`Ok` of the empty mods list. -/
theorem transport_errors_propagate (dump : Json → String) (parse : Json → Except String T)
    (empty : T) (response : WebResponse) (hfail : response.ok = false) :
    (∃ e, getModResult dump parse response = Except.error e ∧ e.code = response.code) ∧
    (∃ e, getModVersionResult dump parse response = Except.error e ∧
      e.code = response.code) ∧
    (∃ e, getModLogoResult response = Except.error e ∧ e.code = response.code) ∧
    (∃ e, getTagsResult dump parse response = Except.error e ∧ e.code = response.code) ∧
    (∃ e, batchedCheckUpdatesResult dump parse response = Except.error e ∧
      e.code = response.code) ∧
    (response.code ≠ 404 →
      ∃ e, getModsResult dump parse empty response = Except.error e ∧
        e.code = response.code) ∧
    (response.code = 404 → getModsResult dump parse empty response = Except.ok empty) := by
  have hc := parseServerError_code response
  refine ⟨⟨_, ?_, hc⟩, ⟨_, ?_, hc⟩, ⟨_, ?_, hc⟩, ⟨_, ?_, hc⟩, ⟨_, ?_, hc⟩, ?_, ?_⟩
  · simp [getModResult, hfail]
  · simp [getModVersionResult, hfail]
  · simp [getModLogoResult, hfail]
  · simp [getTagsResult, hfail]
  · simp [batchedCheckUpdatesResult, hfail]
  · intro h404
    exact ⟨_, by simp [getModsResult, hfail, h404], hc⟩
  · intro h404
    simp [getModsResult, hfail, h404]

/-- Instance of the amended C25: a response with status 500. -/
theorem transport_errors_propagate_witness :
    ((WebResponse.mk 500 false (.error "") (.ok "down") []).ok = false ∧
      (WebResponse.mk 500 false (.error "") (.ok "down") []).code ≠ 404) ∧
    (∃ e, getModResult (fun _ => "") (fun _ => (Except.ok 1 : Except String Nat))
        (WebResponse.mk 500 false (.error "") (.ok "down") []) = Except.error e ∧
      e.code = 500) ∧
    ∃ e, getModsResult (fun _ => "") (fun _ => (Except.ok 1 : Except String Nat)) 0
        (WebResponse.mk 500 false (.error "") (.ok "down") []) = Except.error e ∧
      e.code = 500 :=
  ⟨⟨rfl, by decide⟩,
    (transport_errors_propagate (fun _ => "") (fun _ => Except.ok 1) 0
      (WebResponse.mk 500 false (.error "") (.ok "down") []) rfl).1,
    (transport_errors_propagate (fun _ => "") (fun _ => Except.ok 1) 0
      (WebResponse.mk 500 false (.error "") (.ok "down") []) rfl).2.2.2.2.2.1 (by decide)⟩

/-- C26 (payload errors): `parseServerPayload(response)` is `Ok(p)` exactly when
the body is valid JSON, is an object and has a member "payload" whose value is `p`;
when the body is not JSON, is JSON but not an object, or is an object without
"payload", it is an error, and every error it returns has the code of the
response. -/
theorem parseServerPayload_spec (dump : Json → String) (response : WebResponse) (p : Json) :
    (parseServerPayload dump response = Except.ok p ↔
      ∃ json, response.json = Except.ok json ∧ json.isObject = true ∧
        json.contains "payload" = true ∧ json.index "payload" = p) ∧
    (∀ err, response.json = Except.error err →
      ∃ e, parseServerPayload dump response = Except.error e ∧ e.code = response.code) ∧
    (∀ json, response.json = Except.ok json → json.isObject = false →
      ∃ e, parseServerPayload dump response = Except.error e ∧ e.code = response.code) ∧
    (∀ json, response.json = Except.ok json → json.isObject = true →
      json.contains "payload" = false →
      ∃ e, parseServerPayload dump response = Except.error e ∧ e.code = response.code) ∧
    ∀ e, parseServerPayload dump response = Except.error e → e.code = response.code := by
  refine ⟨?_, ?_, ?_, ?_, ?_⟩
  · constructor
    · intro h
      unfold parseServerPayload at h
      split at h
      · cases h
      · rename_i json hj
        by_cases ho : json.isObject = true
        · by_cases hc : json.contains "payload" = true
          · simp only [ho, hc, Bool.not_true, Bool.false_eq_true, if_false,
              Except.ok.injEq] at h
            exact ⟨json, hj, ho, hc, h⟩
          · simp [ho, hc] at h
        · simp [ho] at h
    · rintro ⟨json, hj, ho, hc, hp⟩
      simp [parseServerPayload, hj, ho, hc, hp]
  · intro err hj
    exact ⟨⟨response.code, "Response was not valid JSON: " ++ err⟩,
      by simp [parseServerPayload, hj], rfl⟩
  · intro json hj ho
    exact ⟨⟨response.code, "Expected object, got " ++ jsonTypeToString json.type⟩,
      by simp [parseServerPayload, hj, ho], rfl⟩
  · intro json hj ho hc
    exact ⟨⟨response.code, "Object does not contain \"payload\" key - got " ++ dump json⟩,
      by simp [parseServerPayload, hj, ho, hc], rfl⟩
  · intro e h
    unfold parseServerPayload at h
    split at h
    · simp only [Except.error.injEq] at h
      rw [← h]
    · rename_i json hj
      by_cases ho : json.isObject = true
      · by_cases hc : json.contains "payload" = true
        · simp [ho, hc] at h
        · simp only [ho, hc, Bool.not_true, Bool.false_eq_true, if_false, Bool.not_false,
            if_true, Except.error.injEq] at h
          rw [← h]
      · simp only [ho, Bool.not_false, if_true, Except.error.injEq] at h
        rw [← h]

/-- Instance of C26: a body that is not JSON, with status 200. -/
theorem parseServerPayload_spec_witness :
    (WebResponse.mk 200 true (.error "bad") (.ok "") []).json = Except.error "bad" ∧
    ∃ e, parseServerPayload (fun _ => "")
        (WebResponse.mk 200 true (.error "bad") (.ok "") []) = Except.error e ∧
      e.code = (WebResponse.mk 200 true (.error "bad") (.ok "") []).code :=
  ⟨rfl, (parseServerPayload_spec (fun _ => "")
    (WebResponse.mk 200 true (.error "bad") (.ok "") []) Json.null).2.1 "bad" rfl⟩

theorem parseItems_fst (parse : Json → Except String T) (message : String)
    (elements : List Json) : ∀ acc : List T × List String,
      (parseItems parse message (elements.map (fun e => ⟨e, none⟩)) acc).1
        = acc.1 ++ elements.filterMap (fun e => (parse e).toOption) := by
  induction elements with
  | nil => intro acc; simp [parseItems]
  | cons e rest ih =>
    intro acc
    simp only [List.map_cons, parseItems]
    cases hp : parse e with
    | ok v => simp [ih, hp, Except.toOption]
    | error err => simp [ih, hp, Except.toOption]

/-- C27 (best-effort lists): on a JSON array `ServerTag::parseList` and
`ServerModUpdate::parseList` return `Ok` of the items whose parse succeeds, in
their order in the array; a failing item never makes the result an error, and an
array of failing items only gives `Ok` of the empty list. -/
theorem parseList_best_effort (parse : Json → Except String T) (elements : List Json) :
    (ServerTag.parseList parse (Json.array elements)).1
      = Except.ok (elements.filterMap (fun e => (parse e).toOption)) ∧
    (ServerModUpdate.parseList parse (Json.array elements)).1
      = Except.ok (elements.filterMap (fun e => (parse e).toOption)) ∧
    ((∀ e ∈ elements, (parse e).toOption = none) →
      (ServerTag.parseList parse (Json.array elements)).1 = Except.ok [] ∧
      (ServerModUpdate.parseList parse (Json.array elements)).1 = Except.ok []) := by
  have h1 : (ServerTag.parseList parse (Json.array elements)).1
      = Except.ok (elements.filterMap (fun e => (parse e).toOption)) := by
    have := parseItems_fst parse "Unable to parse tag from the server: " elements ([], [])
    simp only [List.nil_append] at this
    simp only [ServerTag.parseList, checkJson, JsonExpectedValue.items,
      JsonExpectedValue.ok, this]
  have h2 : (ServerModUpdate.parseList parse (Json.array elements)).1
      = Except.ok (elements.filterMap (fun e => (parse e).toOption)) := by
    have := parseItems_fst parse "Unable to parse mod update from the server: " elements
      ([], [])
    simp only [List.nil_append] at this
    simp only [ServerModUpdate.parseList, checkJson, JsonExpectedValue.items,
      JsonExpectedValue.ok, this]
  refine ⟨h1, h2, ?_⟩
  intro hall
  have hnil : elements.filterMap (fun e => (parse e).toOption) = [] := by
    rw [List.filterMap_eq_nil_iff]
    exact hall
  rw [h1, h2, hnil]
  exact ⟨rfl, rfl⟩

/-- Instance of C27: an array of two items that both fail to parse. -/
theorem parseList_best_effort_witness :
    (∀ e ∈ [Json.null, Json.bool true],
      ((fun _ => Except.error "bad" : Json → Except String Nat) e).toOption = none) ∧
    (ServerTag.parseList (fun _ => (Except.error "bad" : Except String Nat))
      (Json.array [Json.null, Json.bool true])).1 = Except.ok [] ∧
    (ServerModUpdate.parseList (fun _ => (Except.error "bad" : Except String Nat))
      (Json.array [Json.null, Json.bool true])).1 = Except.ok [] :=
  ⟨fun _ _ => rfl,
    (parseList_best_effort (fun _ => (Except.error "bad" : Except String Nat))
      [Json.null, Json.bool true]).2.2 (fun _ _ => rfl)⟩

end Responses

/-! ## Re-fetch after `remove` -/

section Refetch

variable {A W H : Type} [DecidableEq A]

theorem CacheMap.add_sizeLimit {K V : Type} (c c' : CacheMap K V) (key : K) (value : V)
    (h : c.add key value = some c') : c'.m_sizeLimit = c.m_sizeLimit := by
  by_cases hlt : c.m_values.length < c.m_sizeLimit
  · rw [CacheMap.add_of_lt c key value hlt, Option.some.injEq] at h
    rw [← h]
  · by_cases hne : c.m_values = []
    · have h0 : c.m_sizeLimit = 0 := by
        rw [hne] at hlt
        simpa using hlt
      have hc : c = ⟨[], 0⟩ := by
        cases c with
        | mk vs lim =>
          simp only at hne h0
          subst hne
          subst h0
          rfl
      rw [hc, CacheMap.add_empty_zero] at h
      cases h
    · rw [CacheMap.add_of_ge c key value (Nat.not_lt.mp hlt) hne, Option.some.injEq] at h
      rw [← h]

theorem CacheMap.add_defined_of_pos {K V : Type} (c : CacheMap K V) (key : K) (value : V)
    (hlim : 1 ≤ c.m_sizeLimit) : ∃ c', c.add key value = some c' := by
  have hdef : c.m_values ≠ [] ∨ c.m_values.length < c.m_sizeLimit := by
    by_cases hne : c.m_values = []
    · right
      rw [hne]
      exact hlim
    · exact Or.inl hne
  exact Option.isSome_iff_exists.mp ((add_isSome_iff c key value).mpr hdef)

end Refetch

/-! ## Cancellation and the consumption of the batch stack -/

section ChainSteps

variable {I U E : Type}

/-- C29 as stated fails at the final batch: a chain over the single batch `[1]`
whose fetch succeeds ends with that batch still on the stack. -/
theorem final_batch_not_popped_counterexample :
    ∃ s, queueBatches (fun _ batch => (Except.ok batch : Except Nat (List Nat)))
        ⟨[[1]], [], 0, []⟩ = some s ∧
      s.batches = [[1]] ∧ s.batches.length ≠ ([[1]] : List (List Nat)).length - 1 :=
  ⟨_, queueBatches_ok_last (fun _ batch => (Except.ok batch : Except Nat (List Nat)))
    [1] [] 0 [] [1] rfl, rfl, by decide⟩

/-- C29, amended (batch stack consumption): a step of `queueBatches` on the stack
`bs ++ [b]` whose fetch of `b` succeeds with `vs` goes on, when batches remain
under `b`, as `queueBatches` on the stack `bs`, one batch shorter, with `vs`
appended to the accumulator; when `b` is the final batch it pops nothing, leaves
the stack `[b]` and resolves with the accumulated result. -/
theorem stack_consumption (transport : Nat → List I → Except E (List U))
    (bs : List (List I)) (b : List I) (accum : List U) (issued : Nat)
    (trace : List (Event I U E)) (vs : List U) (h : transport issued b = Except.ok vs) :
    (bs ≠ [] →
      queueBatches transport ⟨bs ++ [b], accum, issued, trace⟩
        = queueBatches transport ⟨bs, accum ++ vs, issued + 1,
            trace ++ [Event.request b, Event.response (Except.ok vs)]⟩ ∧
      bs.length + 1 = (bs ++ [b]).length) ∧
    (bs = [] →
      ∃ s, queueBatches transport ⟨bs ++ [b], accum, issued, trace⟩ = some s ∧
        s.batches = [b] ∧ s.accum = accum ++ vs ∧
        Event.resolves s.trace = Event.resolves trace ++ [Except.ok (accum ++ vs)]) := by
  constructor
  · intro hbs
    exact ⟨queueBatches_ok_more transport bs b accum issued trace vs h hbs, by simp⟩
  · intro hbs
    subst hbs
    refine ⟨_, queueBatches_ok_last transport b accum issued trace vs h, rfl, rfl, ?_⟩
    simp only [resolves_append, Event.resolves]

/-- Instance of the amended C29: the step on `[[1], [2]]` and the step on `[[1]]`. -/
theorem stack_consumption_witness :
    ((fun (_ : Nat) (batch : List Nat) => (Except.ok batch : Except Nat (List Nat))) 0 [2]
        = Except.ok [2] ∧ ([[1]] : List (List Nat)) ≠ []) ∧
    (queueBatches (fun _ batch => (Except.ok batch : Except Nat (List Nat)))
        ⟨[[1]] ++ [[2]], [], 0, []⟩
      = queueBatches (fun _ batch => (Except.ok batch : Except Nat (List Nat)))
          ⟨[[1]], [] ++ [2], 0 + 1,
            [] ++ [Event.request [2], Event.response (Except.ok [2])]⟩ ∧
      ([[1]] : List (List Nat)).length + 1 = ([[1]] ++ [[2]]).length) :=
  ⟨⟨rfl, by decide⟩,
    (stack_consumption (fun _ batch => (Except.ok batch : Except Nat (List Nat)))
      [[1]] [2] [] 0 [] [2] rfl).1 (by decide)⟩

end ChainSteps

/-! ## The number of batches -/

section BatchCount

variable {I U E : Type}

/-- The sizes of the batches the loop adds: full batches of `maxBatchSize`, then
the remainder if there is one. -/
theorem batchLoop_sizes (modIDs : List I) (maxBatchSize : Nat) (hpos : 0 < maxBatchSize) :
    ∀ (d i : Nat) (modBatches : List (List I)), modIDs.length - i = d →
      (batchLoop modIDs maxBatchSize hpos i modBatches).map List.length
        = modBatches.map List.length
          ++ List.replicate ((modIDs.length - i) / maxBatchSize) maxBatchSize
          ++ (if (modIDs.length - i) % maxBatchSize = 0 then []
              else [(modIDs.length - i) % maxBatchSize]) := by
  intro d
  induction d using Nat.strong_induction_on with
  | _ d ih =>
    intro i modBatches hd
    by_cases h : i < modIDs.length
    · rw [batchLoop_of_lt modIDs maxBatchSize hpos i modBatches h,
        ih (modIDs.length - (i + maxBatchSize)) (by omega) _ _ rfl]
      rw [List.map_append, List.map_singleton,
        slice_length modIDs i (min modIDs.length (i + maxBatchSize)) (Nat.min_le_left _ _)]
      by_cases hle : i + maxBatchSize ≤ modIDs.length
      · have hx : modIDs.length - i = (modIDs.length - (i + maxBatchSize)) + maxBatchSize := by
          omega
        rw [hx, Nat.add_div_right _ hpos, Nat.add_mod_right, List.replicate_succ,
          Nat.min_eq_right hle]
        have hs : i + maxBatchSize - i = maxBatchSize := by omega
        rw [hs]
        simp
      · have h0 : modIDs.length - (i + maxBatchSize) = 0 := by omega
        have hlt : modIDs.length - i < maxBatchSize := by omega
        rw [h0, Nat.zero_div, Nat.zero_mod, Nat.div_eq_of_lt hlt, Nat.mod_eq_of_lt hlt,
          Nat.min_eq_left (by omega)]
        have hne : ¬ modIDs.length - i = 0 := by omega
        simp [hne]
    · have h0 : modIDs.length - i = 0 := by omega
      rw [batchLoop_of_ge modIDs maxBatchSize hpos i modBatches h, h0]
      simp

/-- Rounding up: `(n + m - 1) / m` counts the full parts of size `m` and the
remainder, if any. -/
theorem ceil_div_eq (n m : Nat) (hm : 0 < m) :
    (n + m - 1) / m = n / m + (if n % m = 0 then 0 else 1) := by
  have hdm := Nat.div_add_mod n m
  have hr := Nat.mod_lt n hm
  by_cases h0 : n % m = 0
  · rw [if_pos h0, Nat.add_zero]
    apply Nat.div_eq_of_lt_le
    · rw [Nat.mul_comm]
      omega
    · rw [Nat.succ_mul, Nat.mul_comm]
      omega
  · rw [if_neg h0]
    apply Nat.div_eq_of_lt_le
    · rw [Nat.add_mul, Nat.one_mul, Nat.mul_comm]
      omega
    · rw [Nat.succ_mul, Nat.add_mul, Nat.one_mul, Nat.mul_comm]
      omega

/-- The number of batches the loop builds from index 0. -/
theorem batchLoop_length (modIDs : List I) (maxBatchSize : Nat) (hpos : 0 < maxBatchSize) :
    (batchLoop modIDs maxBatchSize hpos 0 []).length
      = (modIDs.length + maxBatchSize - 1) / maxBatchSize := by
  have h := congrArg List.length (batchLoop_sizes modIDs maxBatchSize hpos _ 0 [] rfl)
  rw [ceil_div_eq _ _ hpos]
  simp only [List.length_map, List.map_nil, List.nil_append, List.length_append,
    List.length_replicate, Nat.sub_zero] at h
  rw [h]
  split <;> simp

/-- Every batch but the last one built has exactly `maxBatchSize` IDs. -/
theorem batchLoop_full (modIDs : List I) (maxBatchSize : Nat) (hpos : 0 < maxBatchSize)
    (k : Nat) (b : List I)
    (hk : k + 1 < (batchLoop modIDs maxBatchSize hpos 0 []).length)
    (hb : (batchLoop modIDs maxBatchSize hpos 0 [])[k]? = some b) :
    b.length = maxBatchSize := by
  have hs := batchLoop_sizes modIDs maxBatchSize hpos _ 0 [] rfl
  simp only [List.map_nil, List.nil_append, Nat.sub_zero] at hs
  have hlen := congrArg List.length hs
  simp only [List.length_map, List.length_append, List.length_replicate] at hlen
  have hkq : k < modIDs.length / maxBatchSize := by
    rw [hlen] at hk
    split at hk <;> simp at hk <;> omega
  have hget : ((batchLoop modIDs maxBatchSize hpos 0 []).map List.length)[k]?
      = some b.length := by
    rw [List.getElem?_map, hb]
    rfl
  rw [hs, List.getElem?_append_left (by simpa using hkq),
    List.getElem?_replicate_of_lt hkq, Option.some.injEq] at hget
  exact hget.symm

/-- On 40000 IDs the loop builds 200 batches, fewer than `batchCount = 201`. -/
theorem batchLoop_40000 (modIDs : List I) (hn : modIDs.length = 40000) :
    (batchLoop modIDs (modIDs.length / (modIDs.length / 200 + 1) + 1) (Nat.succ_pos _) 0
      []).length < modIDs.length / 200 + 1 := by
  rw [batchLoop_length, hn]
  decide

/-- The number of batches never exceeds `batchCount`. -/
theorem ceil_div_le (n bc : Nat) (hb : 0 < bc) :
    (n + (n / bc + 1) - 1) / (n / bc + 1) ≤ bc := by
  have hlt : n < bc * (n / bc + 1) := Nat.lt_mul_div_succ n hb
  apply Nat.le_of_lt_succ
  rw [Nat.div_lt_iff_lt_mul (Nat.succ_pos _)]
  have he : (bc + 1) * (n / bc + 1) = bc * (n / bc + 1) + (n / bc + 1) := Nat.succ_mul _ _
  show n + (n / bc + 1) - 1 < (bc + 1) * (n / bc + 1)
  rw [he]
  clear he
  generalize bc * (n / bc + 1) = P at hlt ⊢
  generalize n / bc = m
  omega

/-- C30 (batch count): for `n > 200` IDs, with `batchCount = n / 200 + 1` and
`maxBatchSize = n / batchCount + 1`, the partition loop ends with exactly
`(n + maxBatchSize - 1) / maxBatchSize` batches, the quotient rounded up; that
number is at least 2 and at most `batchCount`; every batch but the last has
exactly `maxBatchSize` IDs; the stack and every batch are non-empty, so the run of
the handle is defined and requests non-empty batches only; and for every list of
40000 IDs the number of batches, 200, is strictly less than `batchCount = 201`. -/
theorem batch_count (transport : Nat → List I → Except E (List U)) (modIDs : List I)
    (hn : 200 < modIDs.length) :
    ∃ modBatches, (checkAllUpdates modIDs : ServerRequest I U E)
        = ServerRequest.runWithCallback modBatches ∧
      modBatches.length
        = (modIDs.length + (modIDs.length / (modIDs.length / 200 + 1) + 1) - 1)
            / (modIDs.length / (modIDs.length / 200 + 1) + 1) ∧
      2 ≤ modBatches.length ∧ modBatches.length ≤ modIDs.length / 200 + 1 ∧
      (∀ k b, k + 1 < modBatches.length → modBatches[k]? = some b →
        b.length = modIDs.length / (modIDs.length / 200 + 1) + 1) ∧
      modBatches ≠ [] ∧ (∀ b ∈ modBatches, b ≠ []) ∧
      (∃ trace, (checkAllUpdates modIDs).run transport = some trace ∧
        ∀ b ∈ Event.requests trace, b ≠ []) ∧
      ∀ ids : List I, ids.length = 40000 →
        ∃ bs, (checkAllUpdates ids : ServerRequest I U E)
            = ServerRequest.runWithCallback bs ∧
          bs.length < ids.length / 200 + 1 := by
  have hlen := batchLoop_length modIDs (modIDs.length / (modIDs.length / 200 + 1) + 1)
    (Nat.succ_pos _)
  have hmax := maxBatchSize_le modIDs.length
  have h2 : 2 ≤ (modIDs.length + (modIDs.length / (modIDs.length / 200 + 1) + 1) - 1)
      / (modIDs.length / (modIDs.length / 200 + 1) + 1) := by
    rw [Nat.le_div_iff_mul_le (Nat.succ_pos _)]
    omega
  have hbc : (modIDs.length + (modIDs.length / (modIDs.length / 200 + 1) + 1) - 1)
      / (modIDs.length / (modIDs.length / 200 + 1) + 1) ≤ modIDs.length / 200 + 1 :=
    ceil_div_le modIDs.length (modIDs.length / 200 + 1) (Nat.succ_pos _)
  have hmem : ∀ b ∈ batchLoop modIDs (modIDs.length / (modIDs.length / 200 + 1) + 1)
      (Nat.succ_pos _) 0 [], b ≠ [] := by
    intro b hb
    rcases batchLoop_mem modIDs _ _ _ 0 [] rfl b hb with h | ⟨j, e, hje, he, _, hbe⟩
    · simp at h
    · intro hnil
      have hl := slice_length modIDs j e he
      rw [← hbe, hnil] at hl
      simp only [List.length_nil] at hl
      omega
  have hne : batchLoop modIDs (modIDs.length / (modIDs.length / 200 + 1) + 1)
      (Nat.succ_pos _) 0 [] ≠ [] := by
    intro hnil
    rw [hnil] at hlen
    simp only [List.length_nil] at hlen
    omega
  refine ⟨_, checkAllUpdates_of_gt modIDs hn, hlen, by rw [hlen]; exact h2,
    by rw [hlen]; exact hbc, ?_, hne, hmem, ?_, ?_⟩
  · intro k b hk hb
    exact batchLoop_full modIDs _ _ k b hk hb
  · obtain ⟨s, hs, ⟨j, _, _, hreq⟩, _⟩ := queueBatches_total transport _ [] 0 [] hne
    refine ⟨s.trace, ?_, ?_⟩
    · rw [checkAllUpdates_of_gt modIDs hn]
      simp only [ServerRequest.run, hs, Option.map_some']
    · intro b hb
      rw [hreq] at hb
      simp only [Event.requests, List.nil_append] at hb
      exact hmem b (by simpa using List.mem_of_mem_take hb)
  · intro ids hids
    exact ⟨_, checkAllUpdates_of_gt ids (by omega), batchLoop_40000 ids hids⟩

/-- Instance of C30 with the 201 IDs `0, ..., 200`. -/
theorem batch_count_witness :
    200 < (List.range 201).length ∧
    ∃ modBatches, (checkAllUpdates (List.range 201) : ServerRequest Nat Nat Nat)
        = ServerRequest.runWithCallback modBatches ∧
      2 ≤ modBatches.length ∧ modBatches.length ≤ (List.range 201).length / 200 + 1 :=
  ⟨by simp,
    (batch_count (fun _ batch => (Except.ok batch : Except Nat (List Nat))) (List.range 201)
      (by simp)).elim fun bs h => ⟨bs, h.1, h.2.2.1, h.2.2.2.1⟩⟩

/-! ## Cancellation of the batch chain -/

end BatchCount

/-! ## Reachable states of a `FunCache` -/

section Reachable

variable {A W H : Type} [DecidableEq A]

theorem CacheMap.uniqueKeys_add_of_not_mem {K V : Type} (c c' : CacheMap K V) (key : K)
    (value : V) (hu : c.UniqueKeys) (hnew : key ∉ c.m_values.map Prod.fst)
    (hadd : c.add key value = some c') : c'.UniqueKeys := by
  have happ : ∀ l : List (K × V), (l.map Prod.fst).Nodup → key ∉ l.map Prod.fst →
      ((l ++ [(key, value)]).map Prod.fst).Nodup := by
    intro l hl hk
    rw [List.map_append, List.nodup_append]
    refine ⟨hl, by simp, ?_⟩
    intro a ha hb
    simp only [List.map_cons, List.map_nil, List.mem_singleton] at hb
    exact hk (hb ▸ ha)
  by_cases hlt : c.m_values.length < c.m_sizeLimit
  · rw [CacheMap.add_of_lt c key value hlt, Option.some.injEq] at hadd
    rw [← hadd]
    exact happ _ hu hnew
  · by_cases hne : c.m_values = []
    · rw [← hadd.symm.trans hadd] at hadd
      have hsome := (add_isSome_iff c key value).mp (by rw [hadd]; rfl)
      rcases hsome with h | h
      · exact absurd hne h
      · exact absurd h hlt
    · rw [CacheMap.add_of_ge c key value (Nat.not_lt.mp hlt) hne, Option.some.injEq] at hadd
      rw [← hadd]
      apply happ
      · exact ((List.tail_sublist c.m_values).map Prod.fst).nodup hu
      · intro h
        exact hnew (((List.tail_sublist c.m_values).map Prod.fst).subset h)

theorem CacheMap.size_add_le {K V : Type} (c c' : CacheMap K V) (key : K) (value : V)
    (hle : c.size ≤ c.m_sizeLimit) (hadd : c.add key value = some c') :
    c'.size ≤ c'.m_sizeLimit := by
  by_cases hlt : c.m_values.length < c.m_sizeLimit
  · rw [CacheMap.add_of_lt c key value hlt, Option.some.injEq] at hadd
    rw [← hadd]
    simp only [CacheMap.size, List.length_append, List.length_singleton]
    omega
  · by_cases hne : c.m_values = []
    · have hsome := (add_isSome_iff c key value).mp (by rw [hadd]; rfl)
      rcases hsome with h | h
      · exact absurd hne h
      · exact absurd h hlt
    · rw [CacheMap.add_of_ge c key value (Nat.not_lt.mp hlt) hne, Option.some.injEq] at hadd
      rw [← hadd]
      have hpos := List.length_pos.mpr hne
      simp only [CacheMap.size, List.length_append, List.length_singleton, List.length_tail]
      simp only [CacheMap.size] at hle
      omega

/-- Filtering out a key that occurs at most once drops at most one entry. -/
theorem filter_key_length {K V : Type} [DecidableEq K] (l : List (K × V)) (key : K)
    (hnd : (l.map Prod.fst).Nodup) :
    l.length ≤ (l.filter (fun q => !(q.1 == key))).length + 1 := by
  induction l with
  | nil => simp
  | cons q qs ih =>
    rw [List.map_cons, List.nodup_cons] at hnd
    by_cases hq : q.1 = key
    · have hall : qs.filter (fun q => !(q.1 == key)) = qs := by
        rw [List.filter_eq_self]
        intro x hx
        have : x.1 ≠ key := by
          intro hxk
          apply hnd.1
          rw [hq, ← hxk]
          exact List.mem_map_of_mem Prod.fst hx
        simpa using this
      rw [List.filter_cons_of_neg (by simpa using hq), hall]
      simp
    · rw [List.filter_cons_of_pos (by simpa using hq)]
      have := ih hnd.2
      simp only [List.length_cons]
      omega

/-- The facts kept by every call: unique keys, `size() ≤ limit()`, and a limit of
at least one. -/
theorem FunCache.call_inv (F : A → Bool → W → H × W) (self : FunCache A H) (w : W)
    (c : FunCacheCall A) (hc : ∀ m, c = FunCacheCall.limit m → 1 ≤ m)
    (hu : self.m_cache.UniqueKeys) (hle : self.m_cache.size ≤ self.m_cache.m_sizeLimit)
    (hlim : 1 ≤ self.m_cache.m_sizeLimit) :
    ∃ self1 w1, self.call F w c = some (self1, w1) ∧ self1.m_cache.UniqueKeys ∧
      self1.m_cache.size ≤ self1.m_cache.m_sizeLimit ∧ 1 ≤ self1.m_cache.m_sizeLimit := by
  cases c with
  | get args =>
    cases hget : (self.m_cache.get (ExtractFun.key args)).1 with
    | some v =>
      refine ⟨self, w, ?_, hu, hle, hlim⟩
      simp only [FunCache.call, FunCache.get_of_hit F self args w v hget]
    | none =>
      obtain ⟨c', hc'⟩ := CacheMap.add_defined_of_pos self.m_cache (ExtractFun.key args)
        (F args false w).1 hlim
      have hmiss := (CacheMap.get_eq_none_iff _ _).mp hget
      refine ⟨FunCache.mk c', (F args false w).2, ?_,
        CacheMap.uniqueKeys_add_of_not_mem _ _ _ _ hu hmiss hc',
        CacheMap.size_add_le _ _ _ _ hle hc', ?_⟩
      · simp only [FunCache.call, FunCache.get_of_miss F self args w hget, hc',
          Option.map_some']
      · rw [CacheMap.add_sizeLimit _ _ _ _ hc']
        exact hlim
  | remove args =>
    refine ⟨self.remove args, w, rfl, ?_, ?_, hlim⟩
    · exact CacheMap.uniqueKeys_filter self.m_cache.m_values _ hu
    · show (self.m_cache.m_values.filter _).length ≤ self.m_cache.m_sizeLimit
      exact Nat.le_trans (List.length_filter_le _ _) hle
  | clear =>
    exact ⟨self.clear, w, rfl, List.nodup_nil, Nat.zero_le _, hlim⟩
  | limit m =>
    exact ⟨self.limit m, w, rfl, List.nodup_nil, Nat.zero_le _, hc m rfl⟩

theorem FunCache.calls_inv (F : A → Bool → W → H × W) (cs : List (FunCacheCall A)) :
    ∀ (self : FunCache A H) (w : W), (∀ m, FunCacheCall.limit m ∈ cs → 1 ≤ m) →
      self.m_cache.UniqueKeys → self.m_cache.size ≤ self.m_cache.m_sizeLimit →
      1 ≤ self.m_cache.m_sizeLimit →
      ∃ self1 w1, FunCache.calls F cs self w = some (self1, w1) ∧
        self1.m_cache.UniqueKeys ∧ self1.m_cache.size ≤ self1.m_cache.m_sizeLimit ∧
        1 ≤ self1.m_cache.m_sizeLimit := by
  induction cs with
  | nil => intro self w _ hu hle hlim; exact ⟨self, w, rfl, hu, hle, hlim⟩
  | cons c rest ih =>
    intro self w hc hu hle hlim
    obtain ⟨s1, w1, h1, hu1, hle1, hlim1⟩ := FunCache.call_inv F self w c
      (fun m hm => hc m (hm ▸ List.mem_cons_self _ _)) hu hle hlim
    obtain ⟨s2, w2, h2, hu2, hle2, hlim2⟩ := ih s1 w1
      (fun m hm => hc m (List.mem_cons_of_mem _ hm)) hu1 hle1 hlim1
    exact ⟨s2, w2, by simp only [FunCache.calls, h1, h2], hu2, hle2, hlim2⟩

/-- C31 (uniqueness and bound at the level of `FunCache`): every sequence of
`get`, `remove`, `clear` and `limit(m)` with `m ≥ 1`, made on the initial empty
cache of limit 20, is defined and leaves a cache in which no two entries have
equal keys and `size() ≤ limit()`; and in that cache `remove(a)` deletes at most
one entry. -/
theorem reachable_unique_bounded (F : A → Bool → W → H × W) (cs : List (FunCacheCall A))
    (w : W) (hm : ∀ m, FunCacheCall.limit m ∈ cs → 1 ≤ m) :
    ∃ self1 w1, FunCache.calls F cs ({} : FunCache A H) w = some (self1, w1) ∧
      self1.m_cache.UniqueKeys ∧ self1.size ≤ self1.m_cache.limit_get ∧
      ∀ a, self1.size ≤ (self1.remove a).size + 1 := by
  obtain ⟨s1, w1, h1, hu, hle, _⟩ := FunCache.calls_inv F cs ({} : FunCache A H) w hm
    List.nodup_nil (Nat.zero_le _) (show 1 ≤ 20 by decide)
  refine ⟨s1, w1, h1, hu, hle, ?_⟩
  intro a
  exact filter_key_length s1.m_cache.m_values (ExtractFun.key a) hu

/-- Instance of C31: fetches for the arguments 1 and 2 with limit 1, after which
the cache holds the entry for 2 only. -/
theorem reachable_unique_bounded_witness :
    (∀ m, FunCacheCall.limit m ∈ [FunCacheCall.limit 1, FunCacheCall.get (1 : Nat),
        FunCacheCall.get 2, FunCacheCall.remove 1] → 1 ≤ m) ∧
    ∃ self1 w1,
      FunCache.calls (fun (a : Nat) (_ : Bool) (n : Nat) => (100 * a + n, n + 1))
        [FunCacheCall.limit 1, FunCacheCall.get 1, FunCacheCall.get 2, FunCacheCall.remove 1]
        ({} : FunCache Nat Nat) 0 = some (self1, w1) ∧
      self1.m_cache.UniqueKeys ∧ self1.size ≤ self1.m_cache.limit_get ∧
      ∀ a, self1.size ≤ (self1.remove a).size + 1 :=
  ⟨by simp,
    reachable_unique_bounded (fun (a : Nat) (_ : Bool) (n : Nat) => (100 * a + n, n + 1))
      [FunCacheCall.limit 1, FunCacheCall.get 1, FunCacheCall.get 2, FunCacheCall.remove 1]
      0 (by simp)⟩

end Reachable

/-! ## Parsed mod metadata has a version -/

section Metadata

variable {P MD X : Type}

theorem ServerModMetadata.parseVersions_fst
    (parseVersion : Json → Except String (ServerModVersion MD X))
    (complete : ServerModVersion MD X → ServerModVersion MD X) (id : String)
    (items : List Json) :
    ∀ acc : List (ServerModVersion MD X) × List String,
      (ServerModMetadata.parseVersions parseVersion complete id items acc).1 =
        acc.1 ++ (items.filterMap (fun item => (parseVersion item).toOption)).map complete := by
  induction items with
  | nil => intro acc; simp [ServerModMetadata.parseVersions]
  | cons item rest ih =>
    intro acc
    cases hp : parseVersion item with
    | ok version =>
      simp only [ServerModMetadata.parseVersions, hp, ih, Except.toOption,
        List.filterMap_cons, List.map_cons, List.append_assoc, List.singleton_append]
    | error e =>
      simp only [ServerModMetadata.parseVersions, hp, ih, Except.toOption,
        List.filterMap_cons]

/-- The first element that `filterMap` keeps comes from the first item that is
kept. -/
theorem filterMap_eq_cons {T U : Type} (f : T → Option U) (items : List T) (u : U)
    (us : List U) (h : items.filterMap f = u :: us) :
    ∃ pre item post, items = pre ++ item :: post ∧ (∀ j ∈ pre, f j = none) ∧
      f item = some u := by
  induction items with
  | nil => simp at h
  | cons item rest ih =>
    cases hf : f item with
    | some v =>
      rw [List.filterMap_cons_some hf, List.cons.injEq] at h
      exact ⟨[], item, rest, rfl, by simp, by rw [hf, h.1]⟩
    | none =>
      rw [List.filterMap_cons_none hf] at h
      obtain ⟨pre, it, post, he, hpre, hit⟩ := ih h
      refine ⟨item :: pre, it, post, by rw [he]; rfl, ?_, hit⟩
      intro j hj
      rcases List.mem_cons.mp hj with hj | hj
      · rw [hj]; exact hf
      · exact hpre j hj

theorem toOption_eq_none {T : Type} (r : Except String T) (h : r.toOption = none) :
    ∃ e, r = .error e := by
  cases r with
  | ok v => simp [Except.toOption] at h
  | error e => exact ⟨e, rfl⟩

theorem toOption_eq_some {T : Type} (r : Except String T) (v : T)
    (h : r.toOption = some v) : r = .ok v := by
  cases r with
  | ok u => simp only [Except.toOption, Option.some.injEq] at h; rw [h]
  | error e => simp [Except.toOption] at h

/-- C32 (a parsed mod has a version): a `ServerModMetadata` returned as `Ok` by
`parse` has a non-empty `versions` list, and `latestVersion()` is defined on it:
it is the metadata of the first item of the payload whose version parses, as
completed by `parse`; and a payload none of whose versions parses (among them the
payload with no versions) yields an error. -/
theorem parse_ok_has_version (head : Json → Except String P) (id : P → String)
    (versionItems : Json → List Json)
    (parseVersion : Json → Except String (ServerModVersion MD X))
    (complete : P → Json → ServerModVersion MD X → ServerModVersion MD X)
    (tail : P → Json → P) (root : Json → JsonExpectedValue) (raw : Json) :
    (∀ res : ServerModMetadata P MD X,
      (ServerModMetadata.parse head id versionItems parseVersion complete tail root raw).1
          = .ok res →
        res.versions ≠ [] ∧
        ∃ res0 pre item post version,
          head raw = .ok res0 ∧ versionItems raw = pre ++ item :: post ∧
          (∀ j ∈ pre, ∃ e, parseVersion j = .error e) ∧ parseVersion item = .ok version ∧
          res.latestVersion = some (complete res0 raw version).metadata) ∧
    ((∀ j ∈ versionItems raw, ∃ e, parseVersion j = .error e) →
      ∃ e, (ServerModMetadata.parse head id versionItems parseVersion complete tail root
        raw).1 = .error e) := by
  constructor
  · intro res h
    unfold ServerModMetadata.parse at h
    cases hh : head raw with
    | error e => rw [hh] at h; simp at h
    | ok res0 =>
      rw [hh] at h
      have hfst := ServerModMetadata.parseVersions_fst parseVersion (complete res0 raw)
        (id res0) (versionItems raw) ([], [])
      simp only [List.nil_append] at hfst
      simp only [hfst] at h
      cases hf : (versionItems raw).filterMap (fun item => (parseVersion item).toOption) with
      | nil => rw [hf] at h; simp at h
      | cons v vs =>
        rw [hf] at h
        simp only [List.map_cons, List.isEmpty_cons, Bool.false_eq_true, if_false] at h
        cases hr : (root raw).error with
        | some e => simp [JsonExpectedValue.ok, hr] at h
        | none =>
          simp only [JsonExpectedValue.ok, hr, Except.ok.injEq] at h
          obtain ⟨pre, item, post, he, hpre, hit⟩ := filterMap_eq_cons _ _ _ _ hf
          rw [← h]
          refine ⟨by simp, res0, pre, item, post, v, rfl, he, ?_, ?_, ?_⟩
          · intro j hj
            exact toOption_eq_none _ (hpre j hj)
          · exact toOption_eq_some _ _ hit
          · simp only [ServerModMetadata.latestVersion]
  · intro hall
    unfold ServerModMetadata.parse
    cases hh : head raw with
    | error e => exact ⟨e, rfl⟩
    | ok res0 =>
      have hfst := ServerModMetadata.parseVersions_fst parseVersion (complete res0 raw)
        (id res0) (versionItems raw) ([], [])
      have hnone : (versionItems raw).filterMap (fun item => (parseVersion item).toOption)
          = [] := by
        rw [List.filterMap_eq_nil_iff]
        intro j hj
        obtain ⟨e, he⟩ := hall j hj
        rw [he]; rfl
      rw [hnone] at hfst
      simp only [List.nil_append, List.map_nil] at hfst
      simp only [hfst]
      exact ⟨_, rfl⟩

/-- Instance of C32: of the items `null, 3, 4` the first does not parse, so the
latest version is the one parsed from `3`; and a payload whose only item is
`null` is an error. -/
theorem parse_ok_has_version_witness :
    (∃ res : ServerModMetadata String Nat Unit,
      (ServerModMetadata.parse (fun _ => .ok "mod") (fun p => p)
        (fun raw => match raw with | Json.array xs => xs | _ => [])
        (fun item => match item with
          | Json.number n => .ok ⟨n.toNat, ()⟩
          | _ => .error "not a version")
        (fun _ _ v => v) (fun p _ => p) (fun raw => checkJson raw "ServerModMetadata")
        (Json.array [Json.null, Json.number 3, Json.number 4])).1 = .ok res ∧
      res.versions ≠ [] ∧ res.latestVersion = some 3) ∧
    (∃ e, (ServerModMetadata.parse (fun _ => (.ok "mod" : Except String String)) (fun p => p)
        (fun raw => match raw with | Json.array xs => xs | _ => [])
        (fun item => match item with
          | Json.number n => (.ok ⟨n.toNat, ()⟩ : Except String (ServerModVersion Nat Unit))
          | _ => .error "not a version")
        (fun _ _ v => v) (fun p _ => p) (fun raw => checkJson raw "ServerModMetadata")
        (Json.array [Json.null])).1 = .error e) :=
  ⟨⟨_, rfl,
      ((parse_ok_has_version (fun _ => .ok "mod") (fun p => p)
        (fun raw => match raw with | Json.array xs => xs | _ => [])
        (fun item => match item with
          | Json.number n => .ok ⟨n.toNat, ()⟩
          | _ => .error "not a version")
        (fun _ _ v => v) (fun p _ => p) (fun raw => checkJson raw "ServerModMetadata")
        (Json.array [Json.null, Json.number 3, Json.number 4])).1 _ rfl).1, rfl⟩,
    (parse_ok_has_version (fun _ => (.ok "mod" : Except String String)) (fun p => p)
        (fun raw => match raw with | Json.array xs => xs | _ => [])
        (fun item => match item with
          | Json.number n => (.ok ⟨n.toNat, ()⟩ : Except String (ServerModVersion Nat Unit))
          | _ => .error "not a version")
        (fun _ _ v => v) (fun p _ => p) (fun raw => checkJson raw "ServerModMetadata")
        (Json.array [Json.null])).2
      (by intro j hj; simp only [List.mem_singleton] at hj; rw [hj]; exact ⟨_, rfl⟩)⟩

end Metadata

/-! ## The update of one mod -/

section CheckUpdates

variable {Ver R E : Type}

theorem checkUpdatesLoop_eq_some (gt : Ver → Ver → Bool) (modID : String) (modVersion : Ver)
    (list : List (ServerModUpdate Ver R)) (u : ServerModUpdate Ver R) :
    checkUpdatesLoop gt modID modVersion list = some u ↔
      ∃ pre post, list = pre ++ u :: post ∧
        (u.id == modID && (gt u.version modVersion || u.replacement.isSome)) = true ∧
        ∀ x ∈ pre,
          (x.id == modID && (gt x.version modVersion || x.replacement.isSome)) = false := by
  induction list with
  | nil => simp [checkUpdatesLoop]
  | cons update rest ih =>
    by_cases hc : (update.id == modID &&
        (gt update.version modVersion || update.replacement.isSome)) = true
    · rw [checkUpdatesLoop, if_pos hc]
      constructor
      · intro h
        rw [Option.some.injEq] at h
        exact ⟨[], rest, by rw [h]; rfl, h ▸ hc, by simp⟩
      · rintro ⟨pre, post, he, _, hpre⟩
        cases pre with
        | nil =>
          rw [List.nil_append, List.cons.injEq] at he
          rw [he.1]
        | cons p ps =>
          rw [List.cons_append, List.cons.injEq] at he
          have := hpre p (List.mem_cons_self _ _)
          rw [← he.1, hc] at this
          exact absurd this (by decide)
    · rw [checkUpdatesLoop, if_neg hc, ih]
      constructor
      · rintro ⟨pre, post, he, hu, hpre⟩
        refine ⟨update :: pre, post, by rw [he]; rfl, hu, ?_⟩
        intro x hx
        rcases List.mem_cons.mp hx with hx | hx
        · rw [hx]; exact Bool.eq_false_iff.mpr hc
        · exact hpre x hx
      · rintro ⟨pre, post, he, hu, hpre⟩
        cases pre with
        | nil =>
          rw [List.nil_append, List.cons.injEq] at he
          rw [← he.1] at hu
          exact absurd hu hc
        | cons p ps =>
          rw [List.cons_append, List.cons.injEq] at he
          exact ⟨ps, post, he.2, hu, fun x hx => hpre x (List.mem_cons_of_mem _ hx)⟩

theorem checkUpdatesLoop_eq_none (gt : Ver → Ver → Bool) (modID : String) (modVersion : Ver)
    (list : List (ServerModUpdate Ver R)) :
    checkUpdatesLoop gt modID modVersion list = none ↔
      ∀ x ∈ list,
        (x.id == modID && (gt x.version modVersion || x.replacement.isSome)) = false := by
  induction list with
  | nil => simp [checkUpdatesLoop]
  | cons update rest ih =>
    by_cases hc : (update.id == modID &&
        (gt update.version modVersion || update.replacement.isSome)) = true
    · rw [checkUpdatesLoop, if_pos hc]
      constructor
      · intro h; exact absurd h (by simp)
      · intro h
        have := h update (List.mem_cons_self _ _)
        rw [hc] at this
        exact absurd this (by decide)
    · rw [checkUpdatesLoop, if_neg hc, ih]
      constructor
      · intro h x hx
        rcases List.mem_cons.mp hx with hx | hx
        · rw [hx]; exact Bool.eq_false_iff.mpr hc
        · exact h x hx
      · intro h x hx
        exact h x (List.mem_cons_of_mem _ hx)

/-- C33 (the mapper of `checkUpdates(mod)`): an error is passed through
unchanged; on `Ok(list)` the result is `Ok`, it is `Ok(u)` exactly when `u` is the
first element of `list`, in list order, with `u.id == mod->getID()` and
(`u.version > mod->getVersion()` or `u.replacement` present), and it is
`Ok(nullopt)` if and only if no element of `list` satisfies that condition. -/
theorem checkUpdates_spec (gt : Ver → Ver → Bool) (modID : String) (modVersion : Ver) :
    (∀ e : E, checkUpdates gt modID modVersion (.error e : Except E (List (ServerModUpdate Ver R)))
      = .error e) ∧
    (∀ list : List (ServerModUpdate Ver R),
      ∃ r, checkUpdates gt modID modVersion (.ok list : Except E _) = .ok r) ∧
    (∀ (list : List (ServerModUpdate Ver R)) (u : ServerModUpdate Ver R),
      checkUpdates gt modID modVersion (.ok list : Except E _) = .ok (some u) ↔
        ∃ pre post, list = pre ++ u :: post ∧
          (u.id == modID && (gt u.version modVersion || u.replacement.isSome)) = true ∧
          ∀ x ∈ pre,
            (x.id == modID && (gt x.version modVersion || x.replacement.isSome)) = false) ∧
    (∀ list : List (ServerModUpdate Ver R),
      checkUpdates gt modID modVersion (.ok list : Except E _) = .ok none ↔
        ∀ x ∈ list,
          (x.id == modID && (gt x.version modVersion || x.replacement.isSome)) = false) := by
  refine ⟨fun e => rfl, fun list => ⟨_, rfl⟩, fun list u => ?_, fun list => ?_⟩
  · rw [← checkUpdatesLoop_eq_some]
    simp only [checkUpdates, Except.ok.injEq]
  · rw [← checkUpdatesLoop_eq_none]
    simp only [checkUpdates, Except.ok.injEq]

/-- Instance of C33: of four updates, the first for the mod `b` that is newer
than version 5 or has a replacement is the third one of the list. -/
theorem checkUpdates_spec_witness :
    checkUpdates (fun a b : Nat => decide (a > b)) "b" 5
      (.ok [⟨"a", 9, none⟩, ⟨"b", 5, none⟩, ⟨"b", 2, some "c"⟩, ⟨"b", 7, none⟩] :
        Except Nat (List (ServerModUpdate Nat String)))
      = .ok (some ⟨"b", 2, some "c"⟩) :=
  ((checkUpdates_spec (fun a b : Nat => decide (a > b)) "b" 5).2.2.1
    [⟨"a", 9, none⟩, ⟨"b", 5, none⟩, ⟨"b", 2, some "c"⟩, ⟨"b", 7, none⟩]
    ⟨"b", 2, some "c"⟩).mpr
    ⟨[⟨"a", 9, none⟩, ⟨"b", 5, none⟩], [⟨"b", 7, none⟩], rfl, by decide, by decide⟩

end CheckUpdates

end server
